import Mathlib

/-!
# The `arq` image pipeline: bitmap codec, channel split and recursive FFT

A shallow embedding of `imgFourier.c` (and of its commented twin
`imgFourierVercaoComentada.c`, which has the same code), followed by the properties
proved about it.

Conventions of the embedding:
* a C `int` is an integer between `-2 ^ 31` and `2 ^ 31 - 1`. The products `width * height`
  and the increment `image_index++` are reduced to 32 bits (`int_mul`, `wrap_int`), the way
  the machines the program is written for compute them. Inside `fft` every `int` that is
  computed (`N / 2`, `i * 2 + 1`, `k + N / 2`) lies between 0 and `N` and is written without
  reduction; `N / 2` is only evaluated for `N > 1`, where every rounding convention agrees;
* conversions to the unsigned types (`size_t` of 64 bits, the `uint32_t` field `bfSize`)
  reduce modulo `2 ^ 64` and `2 ^ 32`; the packed structs are laid out least significant
  byte first, as on the machines the program is written for;
* a buffer is a list; a read or write outside the buffer makes the operation return `none`;
* `double` is an arbitrary field `R`, and `cos`, `sin` and `M_PI` come from a `MathLib R`
  table, so that the code can be read over the reals with the exact functions and constant;
* files and the heap are the surroundings `Env` of a call; the files written and the global
  `image_index` are the state `State` passed from call to call.
-/

namespace Arq

/-! ## Data model -/

/-- The C struct `Complex`: a pair `real`, `imag`. -/
structure Complex (R : Type) where
  real : R
  imag : R
deriving DecidableEq, Repr

/-- What `math.h` and the constant `M_PI` provide for the scalar type `R`. -/
structure MathLib (R : Type) where
  M_PI : R
  cos : R → R
  sin : R → R

/-! ## The Fourier engine -/

/-- A store `buf[i] = v`; `none` when `i` is outside the buffer. -/
def storeAt {α : Type} (buf : List α) (i : Nat) (v : α) : Option (List α) :=
  if i < buf.length then some (buf.set i v) else none

/-- The first loop of `fft` after `n` iterations:
`for (i = 0; i < N / 2; i++) { even[i] = x[i * 2]; odd[i] = x[i * 2 + 1]; }`.
Returns `(even, odd)`, or `none` when a read leaves `x`. -/
def fft_split {R : Type} (x : List (Complex R)) : Nat → Option (List (Complex R) × List (Complex R))
  | 0 => some ([], [])
  | i + 1 => do
    let eo ← fft_split x i
    let a ← x[i * 2]?
    let b ← x[i * 2 + 1]?
    pure (eo.1 ++ [a], eo.2 ++ [b])

/-- The second loop of `fft` after `n` iterations: for each `k` the twiddle factor
`exp = (cos t, sin t)` with `t = -2.0 * M_PI * k / N`, the product `temp = exp * odd[k]`,
and the stores `x[k] = even[k] + temp`, `x[k + N / 2] = even[k] - temp`. -/
def fft_combine {R : Type} [Field R] (m : MathLib R) (N : Int) (even odd : List (Complex R))
    (x : List (Complex R)) : Nat → Option (List (Complex R))
  | 0 => some x
  | k + 1 => do
    let x ← fft_combine m N even odd x k
    let t : R := -2 * m.M_PI * (k : R) / (N : R)
    let exp : Complex R := ⟨m.cos t, m.sin t⟩
    let ok ← odd[k]?
    let ek ← even[k]?
    let temp : Complex R :=
      ⟨exp.real * ok.real - exp.imag * ok.imag, exp.real * ok.imag + exp.imag * ok.real⟩
    let x ← storeAt x k ⟨ek.real + temp.real, ek.imag + temp.imag⟩
    storeAt x (k + (N / 2).toNat) ⟨ek.real - temp.real, ek.imag - temp.imag⟩

/-- The function `fft(Complex *x, int N)`: the content of the buffer `x` when the call
returns, or `none` when an access leaves a buffer. The blocks `even` and `odd` are taken
as obtained: the source does not test these two calls of `malloc`. -/
def fft {R : Type} [Field R] (m : MathLib R) (x : List (Complex R)) (N : Int) :
    Option (List (Complex R)) :=
  if N ≤ 1 then some x
  else
    match fft_split x (N / 2).toNat with
    | none => none
    | some (even, odd) =>
      match fft m even (N / 2), fft m odd (N / 2) with
      | some even, some odd => fft_combine m N even odd x (N / 2).toNat
      | _, _ => none
termination_by N.toNat
decreasing_by all_goals omega

/-! ### The transform the engine is compared with -/

/-- The complex number zero. -/
def czero {R : Type} [Field R] : Complex R := ⟨0, 0⟩

/-- The unnormalised forward discrete Fourier transform of `x` at frequency `k`:
the sum over `n < N` of `x[n] * (cos θ + i sin θ)` with `θ = -2 π k n / N`, `N` the
length of `x`; the product is written out in real and imaginary parts. -/
def dft {R : Type} [Field R] (m : MathLib R) (x : List (Complex R)) (k : Nat) : Complex R :=
  ⟨∑ n in Finset.range x.length,
      ((x.getD n czero).real * m.cos (-2 * m.M_PI * (k : R) * (n : R) / (x.length : R))
        - (x.getD n czero).imag * m.sin (-2 * m.M_PI * (k : R) * (n : R) / (x.length : R))),
   ∑ n in Finset.range x.length,
      ((x.getD n czero).real * m.sin (-2 * m.M_PI * (k : R) * (n : R) / (x.length : R))
        + (x.getD n czero).imag * m.cos (-2 * m.M_PI * (k : R) * (n : R) / (x.length : R)))⟩

/-- The length-`N` transform of `f` at frequency `k` over any commutative ring, with `z`
in the place of the root of unity: the sum of `f n * z ^ (k * n)` over `n < N`. -/
def gdft {K : Type} [CommRing K] (z : K) (f : ℕ → K) (N k : ℕ) : K :=
  ∑ n in Finset.range N, f n * z ^ (k * n)

/-- Complex product, as `fft` writes it out for `temp`. -/
def cmul {R : Type} [Field R] (a b : Complex R) : Complex R :=
  ⟨a.real * b.real - a.imag * b.imag, a.real * b.imag + a.imag * b.real⟩

/-- The twiddle factor `exp` of iteration `k` of the second loop of `fft`. -/
def twiddle {R : Type} [Field R] (m : MathLib R) (N : Int) (k : Nat) : Complex R :=
  ⟨m.cos (-2 * m.M_PI * (k : R) / (N : R)), m.sin (-2 * m.M_PI * (k : R) / (N : R))⟩

/-- The value stored in `x[k]` by iteration `k` of the second loop. -/
def butterflyLo {R : Type} [Field R] (m : MathLib R) (N : Int) (even odd : List (Complex R))
    (k : Nat) : Complex R :=
  ⟨(even.getD k czero).real + (cmul (twiddle m N k) (odd.getD k czero)).real,
   (even.getD k czero).imag + (cmul (twiddle m N k) (odd.getD k czero)).imag⟩

/-- The value stored in `x[k + N / 2]` by iteration `k` of the second loop. -/
def butterflyHi {R : Type} [Field R] (m : MathLib R) (N : Int) (even odd : List (Complex R))
    (k : Nat) : Complex R :=
  ⟨(even.getD k czero).real - (cmul (twiddle m N k) (odd.getD k czero)).real,
   (even.getD k czero).imag - (cmul (twiddle m N k) (odd.getD k czero)).imag⟩

/-- A C `Complex` over the reals, as a complex number. -/
def toC (c : Complex ℝ) : ℂ := ⟨c.real, c.imag⟩


/-! ## Bitmap codec -/

/-- The packed struct `RGB`: one byte each, stored in the order blue, green, red. -/
structure RGB where
  blue : UInt8
  green : UInt8
  red : UInt8
deriving DecidableEq, Repr

/-- The packed struct `BITMAPFILEHEADER` (14 bytes). -/
structure BITMAPFILEHEADER where
  bfType : Nat
  bfSize : Nat
  bfReserved1 : Nat
  bfReserved2 : Nat
  bfOffBits : Nat
deriving DecidableEq, Repr

/-- The packed struct `BITMAPINFOHEADER` (40 bytes). -/
structure BITMAPINFOHEADER where
  biSize : Nat
  biWidth : Int
  biHeight : Int
  biPlanes : Nat
  biBitCount : Nat
  biCompression : Nat
  biSizeImage : Nat
  biXPelsPerMeter : Int
  biYPelsPerMeter : Int
  biClrUsed : Nat
  biClrImportant : Nat
deriving DecidableEq, Repr

/-- The two bytes of a `uint16_t` field, least significant first. -/
def u16_bytes (v : Nat) : List UInt8 :=
  [UInt8.ofNat (v % 256), UInt8.ofNat (v / 256 % 256)]

/-- The four bytes of a `uint32_t` field, least significant first. -/
def u32_bytes (v : Nat) : List UInt8 :=
  [UInt8.ofNat (v % 256), UInt8.ofNat (v / 256 % 256), UInt8.ofNat (v / 65536 % 256),
    UInt8.ofNat (v / 16777216 % 256)]

/-- The four bytes of an `int32_t` field: two's complement, least significant first. -/
def i32_bytes (v : Int) : List UInt8 := u32_bytes (v % 2 ^ 32).toNat

/-- The 14 bytes `fwrite(&bfh, sizeof(BITMAPFILEHEADER), 1, fp)` writes. -/
def BITMAPFILEHEADER.bytes (h : BITMAPFILEHEADER) : List UInt8 :=
  u16_bytes h.bfType ++ u32_bytes h.bfSize ++ u16_bytes h.bfReserved1 ++ u16_bytes h.bfReserved2
    ++ u32_bytes h.bfOffBits

/-- The 40 bytes `fwrite(&bih, sizeof(BITMAPINFOHEADER), 1, fp)` writes. -/
def BITMAPINFOHEADER.bytes (h : BITMAPINFOHEADER) : List UInt8 :=
  u32_bytes h.biSize ++ i32_bytes h.biWidth ++ i32_bytes h.biHeight ++ u16_bytes h.biPlanes
    ++ u16_bytes h.biBitCount ++ u32_bytes h.biCompression ++ u32_bytes h.biSizeImage
    ++ i32_bytes h.biXPelsPerMeter ++ i32_bytes h.biYPelsPerMeter ++ u32_bytes h.biClrUsed
    ++ u32_bytes h.biClrImportant

/-- The 3 bytes of one `RGB` record. -/
def RGB.bytes (p : RGB) : List UInt8 := [p.blue, p.green, p.red]

/-- The byte at offset `i` of a stream, as a number. -/
def byte_at (bs : List UInt8) (i : Nat) : Nat := (bs.getD i 0).toNat

/-- The `uint16_t` stored at offset `off`. -/
def get_u16 (bs : List UInt8) (off : Nat) : Nat := byte_at bs off + 256 * byte_at bs (off + 1)

/-- The `uint32_t` stored at offset `off`. -/
def get_u32 (bs : List UInt8) (off : Nat) : Nat :=
  byte_at bs off + 256 * byte_at bs (off + 1) + 65536 * byte_at bs (off + 2)
    + 16777216 * byte_at bs (off + 3)

/-- The `int32_t` stored at offset `off`. -/
def get_i32 (bs : List UInt8) (off : Nat) : Int :=
  if get_u32 bs off < 2 ^ 31 then (get_u32 bs off : Int) else (get_u32 bs off : Int) - 2 ^ 32

/-- The call `fread(&bfh, sizeof(BITMAPFILEHEADER), 1, fp)`: the header and the rest of the
stream, or `none` when fewer than 14 bytes are left (the call then returns 0, not 1). -/
def fread_file_header (stream : List UInt8) : Option (BITMAPFILEHEADER × List UInt8) :=
  if stream.length < 14 then none
  else some
    ({ bfType := get_u16 stream 0, bfSize := get_u32 stream 2, bfReserved1 := get_u16 stream 6,
       bfReserved2 := get_u16 stream 8, bfOffBits := get_u32 stream 10 },
     stream.drop 14)

/-- The call `fread(&bih, sizeof(BITMAPINFOHEADER), 1, fp)`: the header and the rest of the
stream, or `none` when fewer than 40 bytes are left. -/
def fread_info_header (stream : List UInt8) : Option (BITMAPINFOHEADER × List UInt8) :=
  if stream.length < 40 then none
  else some
    ({ biSize := get_u32 stream 0, biWidth := get_i32 stream 4, biHeight := get_i32 stream 8,
       biPlanes := get_u16 stream 12, biBitCount := get_u16 stream 14,
       biCompression := get_u32 stream 16, biSizeImage := get_u32 stream 20,
       biXPelsPerMeter := get_i32 stream 24, biYPelsPerMeter := get_i32 stream 28,
       biClrUsed := get_u32 stream 32, biClrImportant := get_u32 stream 36 },
     stream.drop 40)

/-- The value an `int` takes when the exact result of an operation is `v`: the result
reduced to 32 bits, two's complement. -/
def wrap_int (v : Int) : Int := (v + 2 ^ 31) % 2 ^ 32 - 2 ^ 31

/-- The product `a * b` of two `int`s, as in `width * height`. -/
def int_mul (a b : Int) : Int := wrap_int (a * b)

/-- The conversion of an `int` to `size_t` (64 bits). -/
def size_t (v : Int) : Nat := (v % 2 ^ 64).toNat

/-- The records `fwrite(buf, size, count, fp)` takes from `buf`; `none` when `count`
records are more than the buffer holds. -/
def fwrite_records {α : Type} (buf : List α) (count : Nat) : Option (List α) :=
  if count ≤ buf.length then some (buf.take count) else none

/-- The struct `bfh` as `write_bmp` fills it. In `width * height * sizeof(RGB)` the product
`width * height` is an `int`; the rest of the size is computed in `size_t` and stored in
the 32-bit field `bfSize`. -/
def write_bmp_bfh (width height : Int) : BITMAPFILEHEADER :=
  { bfType := 0x4D42
    bfSize := (14 + 40 + size_t (int_mul width height) * 3) % 2 ^ 64 % 2 ^ 32
    bfReserved1 := 0
    bfReserved2 := 0
    bfOffBits := 14 + 40 }

/-- The struct `bih` as `write_bmp` fills it. -/
def write_bmp_bih (width height : Int) : BITMAPINFOHEADER :=
  { biSize := 40
    biWidth := width
    biHeight := height
    biPlanes := 1
    biBitCount := 24
    biCompression := 0
    biSizeImage := 0
    biXPelsPerMeter := 0
    biYPelsPerMeter := 0
    biClrUsed := 0
    biClrImportant := 0 }

/-- The bytes `write_bmp` sends to the file once it is open: the file header, the info
header, then `width * height` pixel records, the count being the `int` product converted
to `size_t`. -/
def bmp_bytes (pixels : List RGB) (width height : Int) : Option (List UInt8) :=
  match fwrite_records pixels (size_t (int_mul width height)) with
  | none => none
  | some recs =>
    some ((write_bmp_bfh width height).bytes ++ (write_bmp_bih width height).bytes
      ++ recs.flatMap RGB.bytes)

/-! ## The pipeline and its environment -/

/-- What a file written by the program holds. The two spectrum files are kept as the
sequence of samples handed to the writer: `dat` is `fwrite` of the `Complex` array,
`txt` is one `"%lf %lf\n"` line per sample. -/
inductive Artifact (R : Type) where
  | bmp (bytes : List UInt8)
  | dat (samples : List (Complex R))
  | txt (samples : List (Complex R))

/-- The surroundings of one call of `extract_channels`. -/
structure Env where
  /-- `fopen(name, "rb")`: the content of the file, or `none` when it cannot be opened. -/
  fopen_rb : String → Option (List UInt8)
  /-- Whether `fopen(name, "wb")` or `fopen(name, "w")` succeeds. -/
  fopen_w : String → Bool
  /-- Whether `malloc` of that many bytes for the named buffer returns a block. -/
  malloc : String → Nat → Bool
  /-- The bytes a fresh `pixels` block holds before anything is stored in it. -/
  uninit : Nat → UInt8

/-- The state the program carries from file to file: the global `int image_index` and the
files written so far, oldest first. -/
structure State (R : Type) where
  image_index : Int
  files : List (String × Artifact R)

/-- The effect of writing `data` to the file `name`. -/
def State.write {R : Type} (s : State R) (name : String) (data : Artifact R) : State R :=
  { s with files := s.files ++ [(name, data)] }

/-- The function `write_bmp`: nothing happens when the file cannot be opened. -/
def write_bmp {R : Type} (env : Env) (filename : String) (pixels : List RGB) (width height : Int)
    (s : State R) : Option (State R) :=
  if env.fopen_w filename then
    match bmp_bytes pixels width height with
    | none => none
    | some bytes => some (s.write filename (Artifact.bmp bytes))
  else some s

/-- The function `save_fft_to_txt`: one line per sample for `i < N`. -/
def save_fft_to_txt {R : Type} (env : Env) (filename : String) (fft_result : List (Complex R))
    (N : Int) (s : State R) : Option (State R) :=
  if env.fopen_w filename then
    match fwrite_records fft_result N.toNat with
    | none => none
    | some recs => some (s.write filename (Artifact.txt recs))
  else some s

/-- The first loop of `apply_fft` after `n` iterations:
`fft_result[i].real = channel[i].red; fft_result[i].imag = 0.0;`. -/
def load_samples {R : Type} [Field R] (channel : List RGB) : Nat → Option (List (Complex R))
  | 0 => some []
  | i + 1 => do
    let acc ← load_samples channel i
    let p ← channel[i]?
    pure (acc ++ [⟨(p.red.toNat : R), 0⟩])

/-- The buffer `fft_result` of `apply_fft` after the call of `fft`, with
`int N = width * height`. -/
def channel_spectrum {R : Type} [Field R] (m : MathLib R) (channel : List RGB)
    (width height : Int) : Option (List (Complex R)) :=
  match load_samples channel (int_mul width height).toNat with
  | none => none
  | some fft_result => fft m fft_result (int_mul width height)

/-- The function `apply_fft`: the binary file when it can be opened, then the text file.
The block `fft_result` is taken as obtained: the source does not test this `malloc`. -/
def apply_fft {R : Type} [Field R] (m : MathLib R) (env : Env) (channel : List RGB)
    (width height : Int) (dat_filename txt_filename : String) (s : State R) :
    Option (State R) :=
  match channel_spectrum m channel width height with
  | none => none
  | some fft_result =>
    let written :=
      if env.fopen_w dat_filename then
        match fwrite_records fft_result (size_t (int_mul width height)) with
        | none => none
        | some recs => some (s.write dat_filename (Artifact.dat recs))
      else some s
    match written with
    | none => none
    | some s => save_fft_to_txt env txt_filename fft_result (int_mul width height) s

/-- The call `malloc(count * size)` with an `int` count: a negative count becomes a
`size_t` larger than any block, and the call fails; otherwise the environment decides. -/
def malloc_ok (env : Env) (buffer : String) (count : Int) (size : Nat) : Bool :=
  decide (0 ≤ count) && env.malloc buffer (count.toNat * size)

/-- The buffer `pixels` after `fread(pixels, sizeof(RGB), count, fp)`: the bytes the
stream still has, and the former content of the block where the stream ran out. -/
def fread_pixels (env : Env) (stream : List UInt8) (count : Nat) : List RGB :=
  (List.range count).map fun i =>
    { blue := stream.getD (3 * i) (env.uninit (3 * i))
      green := stream.getD (3 * i + 1) (env.uninit (3 * i + 1))
      red := stream.getD (3 * i + 2) (env.uninit (3 * i + 2)) }

/-- The read step of `extract_channels`: open, the two headers, the allocation of
`pixels`, the pixel records. `none` on each early `return`. -/
def read_step (env : Env) (input_file : String) : Option (Int × Int × List RGB) :=
  match env.fopen_rb input_file with
  | none => none
  | some stream =>
    match fread_file_header stream with
    | none => none
    | some (_, stream) =>
      match fread_info_header stream with
      | none => none
      | some (bih, stream) =>
        let width := bih.biWidth
        let height := bih.biHeight
        if malloc_ok env "pixels" (int_mul width height) 3 then
          some (width, height, fread_pixels env stream (int_mul width height).toNat)
        else none

/-- The channel loop of `extract_channels` after `n` iterations: the three buffers
`(red_channel, green_channel, blue_channel)`. -/
def split_channels (pixels : List RGB) : Nat → Option (List RGB × List RGB × List RGB)
  | 0 => some ([], [], [])
  | i + 1 => do
    let acc ← split_channels pixels i
    let p ← pixels[i]?
    pure (acc.1 ++ [{ red := p.red, green := 0, blue := 0 }],
      acc.2.1 ++ [{ red := 0, green := p.green, blue := 0 }],
      acc.2.2 ++ [{ red := 0, green := 0, blue := p.blue }])

/-- The character of a decimal digit. -/
def digit_char (d : Nat) : Char := Char.ofNat (48 + d)

/-- The characters of the conversion `%02d` of `printf`: the decimal digits, with a zero in
front when the result would have fewer than two characters, and a minus sign for a negative
number. -/
def fmt_02d_chars (n : Int) : List Char :=
  if n < 0 then '-' :: ((Nat.digits 10 n.natAbs).reverse.map digit_char)
  else
    List.replicate (2 - (Nat.digits 10 n.toNat).length) '0'
      ++ (Nat.digits 10 n.toNat).reverse.map digit_char

/-- The conversion `%02d` of `printf`, as a string. -/
def fmt_02d (n : Int) : String := String.mk (fmt_02d_chars n)

/-- The name of the red preview. The nine names `snprintf` builds in `extract_channels`
are far shorter than `MAX_FILENAME_LENGTH`, so none is cut. -/
def red_bmp_name (image_index : Int) : String :=
  "output_channels/red_channel_" ++ fmt_02d image_index ++ ".bmp"

/-- The name of the green preview. -/
def green_bmp_name (image_index : Int) : String :=
  "output_channels/green_channel_" ++ fmt_02d image_index ++ ".bmp"

/-- The name of the blue preview. -/
def blue_bmp_name (image_index : Int) : String :=
  "output_channels/blue_channel_" ++ fmt_02d image_index ++ ".bmp"

/-- The name of the binary spectrum of the red channel. -/
def red_dat_name (image_index : Int) : String :=
  "output_fft_DAT/red_channel_fft_" ++ fmt_02d image_index ++ ".dat"

/-- The name of the text spectrum of the red channel. -/
def red_txt_name (image_index : Int) : String :=
  "output_fft_TXT/red_channel_fft_" ++ fmt_02d image_index ++ ".txt"

/-- The name of the binary spectrum of the green channel; `imgFourier.c` has a blank
after `green_channel`, its commented twin has none. -/
def green_dat_name (image_index : Int) : String :=
  "output_fft_DAT/green_channel _fft_" ++ fmt_02d image_index ++ ".dat"

/-- The name of the text spectrum of the green channel. -/
def green_txt_name (image_index : Int) : String :=
  "output_fft_TXT/green_channel_fft_" ++ fmt_02d image_index ++ ".txt"

/-- The name of the binary spectrum of the blue channel. -/
def blue_dat_name (image_index : Int) : String :=
  "output_fft_DAT/blue_channel_fft_" ++ fmt_02d image_index ++ ".dat"

/-- The name of the text spectrum of the blue channel. -/
def blue_txt_name (image_index : Int) : String :=
  "output_fft_TXT/blue_channel_fft_" ++ fmt_02d image_index ++ ".txt"

/-- The nine names of one image: three previews, three binary spectra, three text spectra. -/
def output_names (image_index : Int) : List String :=
  [red_bmp_name image_index, green_bmp_name image_index, blue_bmp_name image_index,
   red_dat_name image_index, red_txt_name image_index, green_dat_name image_index,
   green_txt_name image_index, blue_dat_name image_index, blue_txt_name image_index]

/-- The function `extract_channels`: the state when the call returns, `none` when an
access leaves a buffer. Every early `return` leaves the state as it was; the messages
printed on the way are not part of the state. `width * height` is the `int` product and
`image_index++` the `int` increment. -/
def extract_channels {R : Type} [Field R] (m : MathLib R) (env : Env) (input_file : String)
    (s : State R) : Option (State R) :=
  match read_step env input_file with
  | none => some s
  | some (width, height, pixels) =>
    if malloc_ok env "red_channel" (int_mul width height) 3
        && malloc_ok env "green_channel" (int_mul width height) 3
        && malloc_ok env "blue_channel" (int_mul width height) 3 then
      match split_channels pixels (int_mul width height).toNat with
      | none => none
      | some (red_channel, green_channel, blue_channel) => do
        let s1 ← write_bmp env (red_bmp_name s.image_index) red_channel width height s
        let s2 ← write_bmp env (green_bmp_name s.image_index) green_channel width height s1
        let s3 ← write_bmp env (blue_bmp_name s.image_index) blue_channel width height s2
        let s4 ← apply_fft m env red_channel width height (red_dat_name s.image_index)
          (red_txt_name s.image_index) s3
        let s5 ← apply_fft m env green_channel width height (green_dat_name s.image_index)
          (green_txt_name s.image_index) s4
        let s6 ← apply_fft m env blue_channel width height (blue_dat_name s.image_index)
          (blue_txt_name s.image_index) s5
        pure { s6 with image_index := wrap_int (s6.image_index + 1) }
    else some s

/-- The loop of `process_images_in_directory` over the files it accepts, each with the
surroundings of its call. -/
def process_images_in_directory {R : Type} [Field R] (m : MathLib R) :
    List (Env × String) → State R → Option (State R)
  | [], s => some s
  | (env, input_file) :: rest, s =>
    match extract_channels m env input_file s with
    | none => none
    | some s => process_images_in_directory m rest s

/-- Whether a call of `extract_channels` gets past its early returns: the read step
succeeds and the three channel buffers are obtained. -/
def completes (env : Env) (input_file : String) : Bool :=
  match read_step env input_file with
  | none => false
  | some (width, height, _) =>
    malloc_ok env "red_channel" (int_mul width height) 3
      && malloc_ok env "green_channel" (int_mul width height) 3
      && malloc_ok env "blue_channel" (int_mul width height) 3

/-- The names of the files written between a state and a later one. -/
def written_between {R : Type} (s s' : State R) : List String :=
  (s'.files.drop s.files.length).map Prod.fst


/-- Surroundings in which every file opened for reading is the 57-byte bitmap `write_bmp`
makes of one black pixel (`width = 1`, `height = 1`), and every `malloc` and every `fopen`
for writing succeeds. -/
def one_pixel_env : Env :=
  Env.mk (fun _ => some ((write_bmp_bfh 1 1).bytes ++ (write_bmp_bih 1 1).bytes
    ++ [(⟨0, 0, 0⟩ : RGB)].flatMap RGB.bytes)) (fun _ => true) (fun _ _ => true) (fun _ => 0)

/-- A directory of `n` bitmap files `img/0.bmp`, `img/1.bmp`, ..., each read in
`one_pixel_env`. -/
def one_pixel_inputs (n : Nat) : List (Env × String) :=
  (List.range n).map fun i => (one_pixel_env, "img/" ++ toString i ++ ".bmp")
/-! ### The indices the loops of `fft` use -/

/-- The indices of the caller's buffer `x` read by the first loop of `fft(x, N)`:
`i * 2` and `i * 2 + 1` for `i < N / 2`. No loop runs for `N <= 1`. -/
def fft_read_indices (N : Int) : List Nat :=
  if N ≤ 1 then [] else (List.range (N / 2).toNat).flatMap fun i => [i * 2, i * 2 + 1]

/-- The indices of the caller's buffer `x` written by the second loop of `fft(x, N)`:
`k` and `k + N / 2` for `k < N / 2`. -/
def fft_write_indices (N : Int) : List Nat :=
  if N ≤ 1 then [] else (List.range (N / 2).toNat).flatMap fun k => [k, k + (N / 2).toNat]

/-- The indices of the half buffers `even` and `odd` used by the two loops of `fft(x, N)`:
`i` in the first loop and `k` in the second, both below `N / 2`. -/
def fft_half_indices (N : Int) : List Nat :=
  if N ≤ 1 then [] else List.range (N / 2).toNat


/-! ## Properties of the Fourier engine -/

theorem fft_split_spec {R : Type} (x : List (Complex R)) (h : Nat) (hx : 2 * h ≤ x.length) :
    ∃ E O, fft_split x h = some (E, O) ∧ E.length = h ∧ O.length = h ∧
      (∀ i, i < h → E[i]? = x[i * 2]?) ∧ (∀ i, i < h → O[i]? = x[i * 2 + 1]?) := by
  induction h with
  | zero => exact ⟨[], [], rfl, rfl, rfl, by simp, by simp⟩
  | succ h ih =>
    obtain ⟨E, O, hs, hE, hO, hEi, hOi⟩ := ih (by omega)
    have ha : h * 2 < x.length := by omega
    have hb : h * 2 + 1 < x.length := by omega
    refine ⟨E ++ [x[h * 2]], O ++ [x[h * 2 + 1]], ?_, by simp [hE], by simp [hO], ?_, ?_⟩
    · simp [fft_split, hs, List.getElem?_eq_getElem ha, List.getElem?_eq_getElem hb]
    · intro i hi
      by_cases hlt : i < h
      · rw [List.getElem?_append_left (by omega)]
        exact hEi i hlt
      · have : i = h := by omega
        subst this
        rw [List.getElem?_append_right (by omega)]
        simp [hE, List.getElem?_eq_getElem ha]
    · intro i hi
      by_cases hlt : i < h
      · rw [List.getElem?_append_left (by omega)]
        exact hOi i hlt
      · have : i = h := by omega
        subst this
        rw [List.getElem?_append_right (by omega)]
        simp [hO, List.getElem?_eq_getElem hb]

theorem fft_combine_spec {R : Type} [Field R] (m : MathLib R) (N : Int)
    (E O x : List (Complex R)) (h : Nat) (hN : (N / 2).toNat = h) (hE : E.length = h)
    (hO : O.length = h) (hx : 2 * h ≤ x.length) (k : Nat) (hk : k ≤ h) :
    ∃ y, fft_combine m N E O x k = some y ∧ y.length = x.length ∧
      ∀ j, y[j]? = if j < k then some (butterflyLo m N E O j)
        else if h ≤ j ∧ j < h + k then some (butterflyHi m N E O (j - h))
        else x[j]? := by
  induction k with
  | zero =>
    refine ⟨x, rfl, rfl, fun j => ?_⟩
    rw [if_neg (by omega), if_neg (by omega)]
  | succ k ih =>
    obtain ⟨y, hy, hlen, hget⟩ := ih (by omega)
    have hOk : O[k]? = some (O.getD k czero) := by
      rw [List.getD_eq_getElem?_getD, List.getElem?_eq_getElem (by omega)]; simp
    have hEk : E[k]? = some (E.getD k czero) := by
      rw [List.getD_eq_getElem?_getD, List.getElem?_eq_getElem (by omega)]; simp
    refine ⟨(y.set k (butterflyLo m N E O k)).set (k + h) (butterflyHi m N E O k), ?_, ?_, ?_⟩
    · have h1 : k < y.length := by omega
      have h2 : k + h < (y.set k (butterflyLo m N E O k)).length := by simp; omega
      simp only [fft_combine, hy, hOk, hEk, Option.bind_eq_bind, Option.some_bind, hN]
      have e1 : storeAt y k (butterflyLo m N E O k) = some (y.set k (butterflyLo m N E O k)) := by
        simp [storeAt, h1]
      have e2 : storeAt (y.set k (butterflyLo m N E O k)) (k + h) (butterflyHi m N E O k)
          = some ((y.set k (butterflyLo m N E O k)).set (k + h) (butterflyHi m N E O k)) := by
        simp only [storeAt, h2, if_true]
      change (storeAt y k (butterflyLo m N E O k)).bind
        (fun a => storeAt a (k + h) (butterflyHi m N E O k)) = _
      rw [e1]
      exact e2
    · simp [hlen]
    · intro j
      rw [List.getElem?_set, List.getElem?_set, hget]
      have hl : y.length = x.length := hlen
      by_cases h1 : k + h = j
      · subst h1
        have : k + h < (y.set k (butterflyLo m N E O k)).length := by simp; omega
        simp [this]
        split_ifs <;> first | omega | rfl
      · by_cases h2 : k = j
        · subst h2
          have : k < y.length := by omega
          simp [h1, this]
        · simp only [h1, h2, if_false]
          split_ifs <;> first | omega | rfl


/-! ### The transform over a commutative ring -/

theorem sum_range_two_mul {M : Type} [AddCommMonoid M] (g : ℕ → M) (h : ℕ) :
    ∑ n in Finset.range (2 * h), g n
      = ∑ j in Finset.range h, g (2 * j) + ∑ j in Finset.range h, g (2 * j + 1) := by
  induction h with
  | zero => simp
  | succ h ih =>
    rw [show 2 * (h + 1) = 2 * h + 1 + 1 by ring, Finset.sum_range_succ, Finset.sum_range_succ, ih,
      Finset.sum_range_succ, Finset.sum_range_succ]
    abel

theorem gdft_periodic {K : Type} [CommRing K] (z : K) (f : ℕ → K) (h k : ℕ) (hz : z ^ h = 1) :
    gdft z f h (k + h) = gdft z f h k := by
  unfold gdft
  refine Finset.sum_congr rfl fun n _ => ?_
  rw [add_mul, pow_add, pow_mul z h n, hz, one_pow, mul_one]

theorem gdft_two_mul {K : Type} [CommRing K] (z w : K) (f : ℕ → K) (h k : ℕ) (hw : w ^ 2 = z) :
    gdft w f (2 * h) k
      = gdft z (fun j => f (2 * j)) h k + w ^ k * gdft z (fun j => f (2 * j + 1)) h k := by
  unfold gdft
  rw [sum_range_two_mul, Finset.mul_sum]
  congr 1
  · refine Finset.sum_congr rfl fun j _ => ?_
    rw [← hw, ← pow_mul]
    congr 2
    ring
  · refine Finset.sum_congr rfl fun j _ => ?_
    rw [← hw, ← pow_mul]
    rw [show k * (2 * j + 1) = k + 2 * (k * j) by ring, pow_add]
    ring

theorem gdft_two_mul_add_half {K : Type} [CommRing K] (z w : K) (f : ℕ → K) (h k : ℕ)
    (hw : w ^ 2 = z) (hz : z ^ h = 1) (hm : w ^ h = -1) :
    gdft w f (2 * h) (k + h)
      = gdft z (fun j => f (2 * j)) h k - w ^ k * gdft z (fun j => f (2 * j + 1)) h k := by
  rw [gdft_two_mul z w f h (k + h) hw, gdft_periodic z _ h k hz, gdft_periodic z _ h k hz, pow_add,
    hm]
  ring

theorem gdft_congr {K : Type} [CommRing K] (z : K) (f g : ℕ → K) (N k : ℕ)
    (hfg : ∀ n, n < N → f n = g n) : gdft z f N k = gdft z g N k := by
  unfold gdft
  exact Finset.sum_congr rfl fun n hn => by rw [hfg n (Finset.mem_range.mp hn)]

/-! ### The roots of unity `exp (-2 π i / N)` -/

theorem exp_root_pow_self (h : ℕ) (hh : 0 < h) :
    Complex.exp (-2 * Real.pi * Complex.I / h) ^ h = 1 := by
  rw [← Complex.exp_nat_mul]
  have hne : (h : ℂ) ≠ 0 := by exact_mod_cast hh.ne'
  have : (h : ℂ) * (-2 * Real.pi * Complex.I / h) = ((-1 : ℤ) : ℂ) * (2 * Real.pi * Complex.I) := by
    field_simp
    ring
  rw [this, Complex.exp_int_mul_two_pi_mul_I]

theorem exp_root_two_mul_sq (h : ℕ) :
    Complex.exp (-2 * Real.pi * Complex.I / (2 * h : ℕ)) ^ 2
      = Complex.exp (-2 * Real.pi * Complex.I / h) := by
  rw [← Complex.exp_nat_mul]
  congr 1
  by_cases hz : h = 0
  · subst hz; simp
  · have hne : (h : ℂ) ≠ 0 := by exact_mod_cast hz
    push_cast
    field_simp
    ring

theorem exp_root_two_mul_pow_half (h : ℕ) (hh : 0 < h) :
    Complex.exp (-2 * Real.pi * Complex.I / (2 * h : ℕ)) ^ h = -1 := by
  rw [← Complex.exp_nat_mul]
  have hne : (h : ℂ) ≠ 0 := by exact_mod_cast hh.ne'
  have : (h : ℂ) * (-2 * Real.pi * Complex.I / ((2 * h : ℕ) : ℂ)) = -(Real.pi * Complex.I) := by
    push_cast
    field_simp
    ring
  rw [this, Complex.exp_neg, Complex.exp_pi_mul_I]
  norm_num

/-- The root of unity to a power, as a cosine and a sine. -/
theorem exp_root_pow (N j : ℕ) :
    Complex.exp (-2 * Real.pi * Complex.I / N) ^ j
      = ⟨Real.cos (-2 * Real.pi * j / N), Real.sin (-2 * Real.pi * j / N)⟩ := by
  rw [← Complex.exp_nat_mul]
  have : (j : ℂ) * (-2 * Real.pi * Complex.I / N)
      = ((-2 * Real.pi * j / N : ℝ) : ℂ) * Complex.I := by
    push_cast
    ring
  rw [this]
  apply Complex.ext
  · simp only [Complex.exp_ofReal_mul_I_re]
  · simp only [Complex.exp_ofReal_mul_I_im]

/-! ### From the C structs to complex numbers -/

theorem toC_mk (a b : ℝ) : toC ⟨a, b⟩ = (⟨a, b⟩ : ℂ) := rfl

theorem toC_twiddle (N k : ℕ) :
    toC (twiddle (MathLib.mk Real.pi Real.cos Real.sin) (N : ℤ) k)
      = Complex.exp (-2 * Real.pi * Complex.I / N) ^ k := by
  rw [exp_root_pow]
  simp [toC, twiddle]

theorem toC_cmul (a b : Complex ℝ) : toC (cmul a b) = toC a * toC b := by
  apply Complex.ext <;> simp [toC, cmul]

theorem toC_butterflyLo (m : MathLib ℝ) (N : ℤ) (E O : List (Complex ℝ)) (k : ℕ) :
    toC (butterflyLo m N E O k)
      = toC (E.getD k czero) + toC (twiddle m N k) * toC (O.getD k czero) := by
  rw [← toC_cmul]
  apply Complex.ext <;> simp [toC, butterflyLo]

theorem toC_butterflyHi (m : MathLib ℝ) (N : ℤ) (E O : List (Complex ℝ)) (k : ℕ) :
    toC (butterflyHi m N E O k)
      = toC (E.getD k czero) - toC (twiddle m N k) * toC (O.getD k czero) := by
  rw [← toC_cmul]
  apply Complex.ext <;> simp [toC, butterflyHi]

theorem toC_injective (a b : Complex ℝ) (h : toC a = toC b) : a = b := by
  cases a; cases b
  have h1 := congrArg Complex.re h
  have h2 := congrArg Complex.im h
  simp only [toC] at h1 h2
  simp [h1, h2]

theorem toC_dft (x : List (Complex ℝ)) (k : ℕ) :
    toC (dft (MathLib.mk Real.pi Real.cos Real.sin) x k)
      = gdft (Complex.exp (-2 * Real.pi * Complex.I / x.length))
          (fun n => toC (x.getD n czero)) x.length k := by
  unfold gdft
  have hterm : ∀ n : ℕ, toC (x.getD n czero)
        * Complex.exp (-2 * Real.pi * Complex.I / x.length) ^ (k * n)
      = ⟨(x.getD n czero).real * Real.cos (-2 * Real.pi * k * n / x.length)
          - (x.getD n czero).imag * Real.sin (-2 * Real.pi * k * n / x.length),
        (x.getD n czero).real * Real.sin (-2 * Real.pi * k * n / x.length)
          + (x.getD n czero).imag * Real.cos (-2 * Real.pi * k * n / x.length)⟩ := by
    intro n
    rw [exp_root_pow]
    have e : (-2 * Real.pi * ((k * n : ℕ) : ℝ) / x.length) = -2 * Real.pi * k * n / x.length := by
      push_cast; ring
    rw [e]
    apply Complex.ext <;> simp [toC]
  simp only [hterm]
  apply Complex.ext
  · simp [toC, dft, Complex.re_sum]
  · simp [toC, dft, Complex.im_sum]


/-! ### The recursion computes the transform -/

theorem getD_eq_of_getElem? {α : Type} (l l' : List α) (i j : ℕ) (d : α)
    (h : l[i]? = l'[j]?) : l.getD i d = l'.getD j d := by
  rw [List.getD_eq_getElem?_getD, List.getD_eq_getElem?_getD, h]

theorem fft_eq_gdft (m : ℕ) : ∀ x : List (Complex ℝ), x.length = 2 ^ m →
    ∃ out, fft (MathLib.mk Real.pi Real.cos Real.sin) x ((2 ^ m : ℕ) : ℤ) = some out ∧
      out.length = 2 ^ m ∧
      ∀ k, k < 2 ^ m → toC (out.getD k czero)
        = gdft (Complex.exp (-2 * Real.pi * Complex.I / ((2 ^ m : ℕ) : ℂ)))
            (fun n => toC (x.getD n czero)) (2 ^ m) k := by
  induction m with
  | zero =>
    intro x hx
    refine ⟨x, ?_, hx, ?_⟩
    · rw [fft]; simp
    · intro k hk
      have hk0 : k = 0 := by omega
      subst hk0
      simp [gdft]
  | succ m ih =>
    intro x hx
    have hpos : 0 < 2 ^ m := Nat.two_pow_pos m
    have hpow : 2 ^ (m + 1) = 2 * 2 ^ m := by ring
    generalize hh : 2 ^ m = h at *
    rw [hpow] at hx ⊢
    have hhalf : (((2 * h : ℕ) : ℤ) / 2).toNat = h := by
      push_cast
      omega
    have hhalf' : ((2 * h : ℕ) : ℤ) / 2 = (h : ℤ) := by
      push_cast
      omega
    obtain ⟨E, O, hs, hE, hO, hEi, hOi⟩ := fft_split_spec x h (by omega)
    obtain ⟨E', hfE, hElen, hEval⟩ := ih E hE
    obtain ⟨O', hfO, hOlen, hOval⟩ := ih O hO
    obtain ⟨y, hy, hylen, hyget⟩ :=
      fft_combine_spec (MathLib.mk Real.pi Real.cos Real.sin) ((2 * h : ℕ) : ℤ) E' O' x h hhalf
        hElen hOlen (by omega) h le_rfl
    have hEf : ∀ k, gdft (Complex.exp (-2 * Real.pi * Complex.I / (h : ℂ)))
          (fun n => toC (E.getD n czero)) h k
        = gdft (Complex.exp (-2 * Real.pi * Complex.I / (h : ℂ)))
          (fun j => toC (x.getD (2 * j) czero)) h k := fun k =>
      gdft_congr _ _ _ _ _ fun n hn => by
        show toC (E.getD n czero) = toC (x.getD (2 * n) czero)
        rw [getD_eq_of_getElem? E x n (2 * n) czero (by rw [hEi n hn, mul_comm])]
    have hOf : ∀ k, gdft (Complex.exp (-2 * Real.pi * Complex.I / (h : ℂ)))
          (fun n => toC (O.getD n czero)) h k
        = gdft (Complex.exp (-2 * Real.pi * Complex.I / (h : ℂ)))
          (fun j => toC (x.getD (2 * j + 1) czero)) h k := fun k =>
      gdft_congr _ _ _ _ _ fun n hn => by
        show toC (O.getD n czero) = toC (x.getD (2 * n + 1) czero)
        rw [getD_eq_of_getElem? O x n (2 * n + 1) czero (by rw [hOi n hn, mul_comm])]
    refine ⟨y, ?_, by omega, ?_⟩
    · rw [fft]
      have hgt : ¬ ((2 * h : ℕ) : ℤ) ≤ 1 := by push_cast; omega
      rw [if_neg hgt, hhalf, hs]
      simp only [hhalf', hfE, hfO]
      exact hy
    · intro k hk
      rw [List.getD_eq_getElem?_getD, hyget k]
      by_cases hlt : k < h
      · rw [if_pos hlt]
        simp only [Option.getD_some]
        rw [toC_butterflyLo, toC_twiddle, hEval k hlt, hOval k hlt, hEf, hOf]
        exact (gdft_two_mul _ _ (fun n => toC (x.getD n czero)) h k (exp_root_two_mul_sq h)).symm
      · rw [if_neg hlt, if_pos ⟨by omega, by omega⟩]
        simp only [Option.getD_some]
        rw [toC_butterflyHi, toC_twiddle, hEval (k - h) (by omega), hOval (k - h) (by omega),
          hEf, hOf]
        have hk' : k = (k - h) + h := by omega
        conv_rhs => rw [hk']
        exact (gdft_two_mul_add_half _ _ (fun n => toC (x.getD n czero)) h (k - h)
          (exp_root_two_mul_sq h)
          (exp_root_pow_self h hpos) (exp_root_two_mul_pow_half h hpos)).symm


theorem getElem?_of_toC_getD (out : List (Complex ℝ)) (k : ℕ) (c : Complex ℝ)
    (hk : k < out.length) (h : toC (out.getD k czero) = toC c) : out[k]? = some c := by
  rw [List.getD_eq_getElem?_getD, List.getElem?_eq_getElem hk] at h
  rw [List.getElem?_eq_getElem hk]
  exact congrArg some (toC_injective _ _ h)

/-- On a buffer whose length is the power of two `2 ^ m`, `fft` returns, and the buffer then
holds the transform `dft` of the input at every index. -/
theorem fft_eq_dft (m : ℕ) (x : List (Complex ℝ)) (hx : x.length = 2 ^ m) :
    ∃ out, fft (MathLib.mk Real.pi Real.cos Real.sin) x ((2 : ℤ) ^ m) = some out ∧
      out.length = 2 ^ m ∧
      ∀ k, k < 2 ^ m → out[k]? = some (dft (MathLib.mk Real.pi Real.cos Real.sin) x k) := by
  obtain ⟨out, hf, hlen, hval⟩ := fft_eq_gdft m x hx
  refine ⟨out, ?_, hlen, fun k hk => ?_⟩
  · rw [← hf]; norm_cast
  · apply getElem?_of_toC_getD out k _ (by omega)
    rw [hval k hk, toC_dft, hx]

/-- With real samples, the transform at `N - k` is the conjugate of the transform at `k`. -/
theorem dft_conj_symm (x : List (Complex ℝ)) (himag : ∀ c ∈ x, c.imag = 0) (k : ℕ)
    (hk : k < x.length) :
    (dft (MathLib.mk Real.pi Real.cos Real.sin) x (x.length - k)).real
        = (dft (MathLib.mk Real.pi Real.cos Real.sin) x k).real ∧
      (dft (MathLib.mk Real.pi Real.cos Real.sin) x (x.length - k)).imag
        = -(dft (MathLib.mk Real.pi Real.cos Real.sin) x k).imag := by
  have hN : (x.length : ℝ) ≠ 0 := by
    have : 0 < x.length := by omega
    exact_mod_cast this.ne'
  have hzero : ∀ n, n < x.length → (x.getD n czero).imag = 0 := by
    intro n hn
    rw [List.getD_eq_getElem?_getD, List.getElem?_eq_getElem hn]
    exact himag _ (List.getElem_mem hn)
  have hangle : ∀ n : ℕ, -2 * Real.pi * ((x.length - k : ℕ) : ℝ) * n / x.length
      = 2 * Real.pi * k * n / x.length - n * (2 * Real.pi) := by
    intro n
    rw [Nat.cast_sub hk.le]
    field_simp
    ring
  have hneg : ∀ n : ℕ, -2 * Real.pi * (k : ℝ) * n / x.length
      = -(2 * Real.pi * k * n / x.length) := by
    intro n; ring
  constructor
  · simp only [dft]
    refine Finset.sum_congr rfl fun n hn => ?_
    rw [hzero n (Finset.mem_range.mp hn), hangle, Real.cos_sub_nat_mul_two_pi, hneg, Real.cos_neg]
    ring
  · simp only [dft]
    rw [← Finset.sum_neg_distrib]
    refine Finset.sum_congr rfl fun n hn => ?_
    rw [hzero n (Finset.mem_range.mp hn), hangle, Real.sin_sub_nat_mul_two_pi, hneg, Real.sin_neg]
    ring

/-- The transform of the unit impulse at index 0 is `(1, 0)` at every frequency. -/
theorem dft_impulse (n k : ℕ) :
    dft (MathLib.mk Real.pi Real.cos Real.sin)
        ((⟨1, 0⟩ : Complex ℝ) :: List.replicate n ⟨0, 0⟩) k = ⟨1, 0⟩ := by
  have hget : ∀ j, j ≠ 0 →
      ((⟨1, 0⟩ : Complex ℝ) :: List.replicate n ⟨0, 0⟩).getD j czero = ⟨0, 0⟩ := by
    intro j hj
    obtain ⟨i, rfl⟩ := Nat.exists_eq_succ_of_ne_zero hj
    rw [List.getD_cons_succ, List.getD_eq_getElem?_getD]
    by_cases hi : i < n
    · simp [hi]
    · rw [List.getElem?_eq_none (by simp; omega)]
      rfl
  simp only [dft]
  congr 1
  · rw [Finset.sum_eq_single 0]
    · simp
    · intro j _ hj
      rw [hget j hj]; simp
    · intro h0; simp at h0
  · rw [Finset.sum_eq_single 0]
    · simp
    · intro j _ hj
      rw [hget j hj]; simp
    · intro h0; simp at h0


/-! ### The claims on the Fourier engine -/

/-- C1: for every `m` and every complex sequence `x` of length `N = 2 ^ m`, with the scalars
read as real numbers and `cos`, `sin`, `M_PI` as the exact functions and constant, the call
`fft(x, N)` returns and the buffer then holds the unnormalised forward discrete Fourier
transform of the input: `out[k]` is the sum over `n < N` of
`x[n] * (cos (-2 π k n / N) + i sin (-2 π k n / N))`, with no `1 / N` factor; for `N = 1`
the input is returned unchanged. -/
theorem fft_unnormalised_forward_dft (m : ℕ) (x : List (Complex ℝ)) (hx : x.length = 2 ^ m) :
    ∃ out, fft (MathLib.mk Real.pi Real.cos Real.sin) x ((2 : ℤ) ^ m) = some out ∧
      out.length = 2 ^ m ∧
      (∀ k, k < 2 ^ m → out[k]? = some (dft (MathLib.mk Real.pi Real.cos Real.sin) x k)) ∧
      (m = 0 → out = x) := by
  obtain ⟨out, hf, hlen, hval⟩ := fft_eq_dft m x hx
  refine ⟨out, hf, hlen, hval, ?_⟩
  intro hm
  subst hm
  rw [fft] at hf
  simpa using hf.symm

theorem fft_unnormalised_forward_dft_witness :
    ([⟨1, 0⟩, ⟨2, 0⟩] : List (Complex ℝ)).length = 2 ^ 1 ∧
    ∃ out, fft (MathLib.mk Real.pi Real.cos Real.sin) [⟨1, 0⟩, ⟨2, 0⟩] ((2 : ℤ) ^ 1) = some out ∧
      out.length = 2 ^ 1 ∧
      (∀ k, k < 2 ^ 1 →
        out[k]? = some (dft (MathLib.mk Real.pi Real.cos Real.sin) [⟨1, 0⟩, ⟨2, 0⟩] k)) ∧
      (1 = 0 → out = [⟨1, 0⟩, ⟨2, 0⟩]) :=
  ⟨rfl, fft_unnormalised_forward_dft 1 [⟨1, 0⟩, ⟨2, 0⟩] rfl⟩

/-- C7: conjugate symmetry. For every power of two `N = 2 ^ m` and every input of length `N`
whose imaginary parts are all zero, over the reals, `fft` returns and for every `k` with
`0 < k < N` the outputs at `k` and `N - k` have the same real part and opposite imaginary
parts. -/
theorem fft_conjugate_symmetry (m : ℕ) (x : List (Complex ℝ)) (hx : x.length = 2 ^ m)
    (himag : ∀ c ∈ x, c.imag = 0) :
    ∃ out, fft (MathLib.mk Real.pi Real.cos Real.sin) x ((2 : ℤ) ^ m) = some out ∧
      ∀ k, 0 < k → k < 2 ^ m →
        ∃ a b : Complex ℝ, out[k]? = some a ∧ out[2 ^ m - k]? = some b ∧
          b.real = a.real ∧ b.imag = -a.imag := by
  obtain ⟨out, hf, _, hval⟩ := fft_eq_dft m x hx
  refine ⟨out, hf, fun k hk0 hk => ?_⟩
  refine ⟨_, _, hval k hk, hval (2 ^ m - k) (by omega), ?_⟩
  have h := dft_conj_symm x himag k (by omega)
  rw [hx] at h
  exact h

theorem fft_conjugate_symmetry_witness :
    ([⟨1, 0⟩, ⟨2, 0⟩, ⟨3, 0⟩, ⟨5, 0⟩] : List (Complex ℝ)).length = 2 ^ 2 ∧
    (∀ c ∈ ([⟨1, 0⟩, ⟨2, 0⟩, ⟨3, 0⟩, ⟨5, 0⟩] : List (Complex ℝ)), c.imag = 0) ∧
    ∃ out, fft (MathLib.mk Real.pi Real.cos Real.sin) [⟨1, 0⟩, ⟨2, 0⟩, ⟨3, 0⟩, ⟨5, 0⟩]
        ((2 : ℤ) ^ 2) = some out ∧
      ∀ k, 0 < k → k < 2 ^ 2 →
        ∃ a b : Complex ℝ, out[k]? = some a ∧ out[2 ^ 2 - k]? = some b ∧
          b.real = a.real ∧ b.imag = -a.imag :=
  ⟨rfl, by simp,
    fft_conjugate_symmetry 2 [⟨1, 0⟩, ⟨2, 0⟩, ⟨3, 0⟩, ⟨5, 0⟩] rfl (by simp)⟩

/-- C8: a unit impulse at index 0 has a flat spectrum. For every power of two `N = 2 ^ m`,
`fft` on the input of length `N` whose element 0 is `(1, 0)` and whose other elements are
`(0, 0)` leaves `(1, 0)` in every element; in particular for `N = 4` the input
`[1, 0, 0, 0]` gives `[(1, 0), (1, 0), (1, 0), (1, 0)]`. -/
theorem fft_impulse_flat :
    (∀ m : ℕ, fft (MathLib.mk Real.pi Real.cos Real.sin)
        ((⟨1, 0⟩ : Complex ℝ) :: List.replicate (2 ^ m - 1) ⟨0, 0⟩) ((2 : ℤ) ^ m)
      = some (List.replicate (2 ^ m) ⟨1, 0⟩)) ∧
    fft (MathLib.mk Real.pi Real.cos Real.sin)
        [(⟨1, 0⟩ : Complex ℝ), ⟨0, 0⟩, ⟨0, 0⟩, ⟨0, 0⟩] 4
      = some [⟨1, 0⟩, ⟨1, 0⟩, ⟨1, 0⟩, ⟨1, 0⟩] := by
  have hall : ∀ m : ℕ, fft (MathLib.mk Real.pi Real.cos Real.sin)
        ((⟨1, 0⟩ : Complex ℝ) :: List.replicate (2 ^ m - 1) ⟨0, 0⟩) ((2 : ℤ) ^ m)
      = some (List.replicate (2 ^ m) ⟨1, 0⟩) := by
    intro m
    have hpos : 0 < 2 ^ m := Nat.two_pow_pos m
    have hlen : ((⟨1, 0⟩ : Complex ℝ) :: List.replicate (2 ^ m - 1) ⟨0, 0⟩).length = 2 ^ m := by
      simp; omega
    obtain ⟨out, hf, hout, hval⟩ := fft_eq_dft m _ hlen
    rw [hf]
    congr 1
    apply List.ext_getElem?
    intro k
    by_cases hk : k < 2 ^ m
    · rw [hval k hk, dft_impulse]
      simp [hk]
    · rw [List.getElem?_eq_none (by omega), List.getElem?_eq_none (by simp; omega)]
  refine ⟨hall, ?_⟩
  have h2 := hall 2
  norm_num [List.replicate] at h2
  exact h2


/-! ## Properties of the bitmap codec -/

theorem u8_toNat_ofNat (n : ℕ) : (UInt8.ofNat n).toNat = n % 256 := by
  simp [UInt8.toNat, UInt8.ofNat, Fin.ofNat]

theorem flatMap_bytes_length (pixels : List RGB) :
    (pixels.flatMap RGB.bytes).length = 3 * pixels.length := by
  induction pixels with
  | nil => rfl
  | cons p ps ih =>
    simp only [List.flatMap_cons, List.length_append, ih, List.length_cons, RGB.bytes,
      List.length_nil]
    omega

theorem bfh_bytes_length (h : BITMAPFILEHEADER) : h.bytes.length = 14 := rfl

theorem bih_bytes_length (h : BITMAPINFOHEADER) : h.bytes.length = 40 := rfl

/-- The bytes of the pixel records, read back three at a time. -/
theorem flatMap_bytes_getD (pixels : List RGB) (i : ℕ) (hi : i < pixels.length) (d : UInt8) :
    (pixels.flatMap RGB.bytes).getD (3 * i) d = pixels[i].blue ∧
    (pixels.flatMap RGB.bytes).getD (3 * i + 1) d = pixels[i].green ∧
    (pixels.flatMap RGB.bytes).getD (3 * i + 2) d = pixels[i].red := by
  induction pixels generalizing i with
  | nil => simp at hi
  | cons p ps ih =>
    cases i with
    | zero => simp [RGB.bytes]
    | succ i =>
      have hi' : i < ps.length := by simpa using hi
      have hshift : ∀ n, ((p :: ps).flatMap RGB.bytes).getD (n + 3) d
          = (ps.flatMap RGB.bytes).getD n d := by
        intro n
        simp [RGB.bytes, List.getD_cons_succ]
      have e0 : 3 * (i + 1) = 3 * i + 3 := by ring
      have e1 : 3 * (i + 1) + 1 = 3 * i + 1 + 3 := by ring
      have e2 : 3 * (i + 1) + 2 = 3 * i + 2 + 3 := by ring
      rw [e1, e2, e0, hshift, hshift, hshift]
      simpa using ih i hi'

theorem fread_pixels_flatMap (env : Env) (pixels : List RGB) :
    fread_pixels env (pixels.flatMap RGB.bytes) pixels.length = pixels := by
  apply List.ext_getElem
  · simp [fread_pixels]
  · intro i h1 h2
    simp only [fread_pixels, List.getElem_map, List.getElem_range]
    rw [(flatMap_bytes_getD pixels i h2 _).1, (flatMap_bytes_getD pixels i h2 _).2.1,
      (flatMap_bytes_getD pixels i h2 _).2.2]

theorem get_u32_bytes (v : ℕ) (hv : v < 2 ^ 32) (pre post : List UInt8) :
    get_u32 (pre ++ u32_bytes v ++ post) pre.length = v := by
  have h : ∀ j, j < 4 → (pre ++ u32_bytes v ++ post).getD (pre.length + j) 0
      = (u32_bytes v).getD j 0 := by
    intro j hj
    rw [List.append_assoc, List.getD_eq_getElem?_getD, List.getD_eq_getElem?_getD,
      List.getElem?_append_right (by omega)]
    rw [List.getElem?_append_left (by simp [u32_bytes]; omega)]
    simp
  have h0 := h 0 (by omega)
  rw [Nat.add_zero] at h0
  simp only [get_u32, byte_at, h0, h 1 (by omega), h 2 (by omega), h 3 (by omega), ← Nat.add_assoc]
  simp only [u32_bytes, List.getD_cons_zero, List.getD_cons_succ, u8_toNat_ofNat]
  omega

theorem get_u16_bytes (v : ℕ) (hv : v < 2 ^ 16) (pre post : List UInt8) :
    get_u16 (pre ++ u16_bytes v ++ post) pre.length = v := by
  have h : ∀ j, j < 2 → (pre ++ u16_bytes v ++ post).getD (pre.length + j) 0
      = (u16_bytes v).getD j 0 := by
    intro j hj
    rw [List.append_assoc, List.getD_eq_getElem?_getD, List.getD_eq_getElem?_getD,
      List.getElem?_append_right (by omega)]
    rw [List.getElem?_append_left (by simp [u16_bytes]; omega)]
    simp
  have h0 := h 0 (by omega)
  rw [Nat.add_zero] at h0
  simp only [get_u16, byte_at, h0, h 1 (by omega)]
  simp only [u16_bytes, List.getD_cons_zero, List.getD_cons_succ, u8_toNat_ofNat]
  omega

theorem get_i32_bytes (v : ℤ) (hlo : -2 ^ 31 ≤ v) (hhi : v < 2 ^ 31) (pre post : List UInt8) :
    get_i32 (pre ++ i32_bytes v ++ post) pre.length = v := by
  have hu : get_u32 (pre ++ i32_bytes v ++ post) pre.length = (v % 2 ^ 32).toNat :=
    get_u32_bytes _ (by omega) pre post
  simp only [get_i32, hu]
  split_ifs <;> omega


theorem int_mul_exact (a b : ℤ) (hlo : -2 ^ 31 ≤ a * b) (hhi : a * b < 2 ^ 31) :
    int_mul a b = a * b := by
  simp only [int_mul, wrap_int]
  omega

theorem wrap_int_range (v : ℤ) : -2 ^ 31 ≤ wrap_int v ∧ wrap_int v < 2 ^ 31 := by
  simp only [wrap_int]
  omega

theorem u32_reassemble (v : ℕ) (hv : v < 2 ^ 32) :
    v % 256 % 256 + 256 * (v / 256 % 256 % 256) + 65536 * (v / 65536 % 256 % 256)
      + 16777216 * (v / 16777216 % 256 % 256) = v := by
  omega

theorem size_t_of_length (pixels : List RGB) (width height : ℤ)
    (hprod : width * height < 2 ^ 31) (hlen : (pixels.length : ℤ) = width * height) :
    size_t (int_mul width height) = pixels.length := by
  have hlo : -2 ^ 31 ≤ width * height := by
    rw [← hlen]
    omega
  rw [int_mul_exact width height hlo hprod]
  rw [← hlen] at hprod ⊢
  simp only [size_t]
  omega

theorem bmp_bytes_eq (pixels : List RGB) (width height : ℤ)
    (hcount : size_t (int_mul width height) = pixels.length) :
    bmp_bytes pixels width height
      = some ((write_bmp_bfh width height).bytes ++ (write_bmp_bih width height).bytes
          ++ pixels.flatMap RGB.bytes) := by
  simp [bmp_bytes, fwrite_records, hcount]

/-- The 54 header bytes `write_bmp` emits, one by one, when `width * height` fits an
`int`. -/
theorem bmp_header_bytes (pixels : List RGB) (width height : ℤ)
    (hw : 0 ≤ width) (hw' : width < 2 ^ 31) (hh : 0 ≤ height) (hh' : height < 2 ^ 31)
    (hprod : width * height < 2 ^ 31) (hlen : (pixels.length : ℤ) = width * height) :
    (write_bmp_bfh width height).bytes ++ (write_bmp_bih width height).bytes
      = [66, 77,
          UInt8.ofNat (((14 + 40 + (width * height).toNat * 3) % 2 ^ 32) % 256),
          UInt8.ofNat (((14 + 40 + (width * height).toNat * 3) % 2 ^ 32) / 256 % 256),
          UInt8.ofNat (((14 + 40 + (width * height).toNat * 3) % 2 ^ 32) / 65536 % 256),
          UInt8.ofNat (((14 + 40 + (width * height).toNat * 3) % 2 ^ 32) / 16777216 % 256),
          0, 0, 0, 0, 54, 0, 0, 0,
          40, 0, 0, 0,
          UInt8.ofNat (width.toNat % 256), UInt8.ofNat (width.toNat / 256 % 256),
          UInt8.ofNat (width.toNat / 65536 % 256), UInt8.ofNat (width.toNat / 16777216 % 256),
          UInt8.ofNat (height.toNat % 256), UInt8.ofNat (height.toNat / 256 % 256),
          UInt8.ofNat (height.toNat / 65536 % 256), UInt8.ofNat (height.toNat / 16777216 % 256),
          1, 0, 24, 0, 0, 0, 0, 0, 0, 0, 0, 0, 0, 0, 0, 0, 0, 0, 0, 0, 0, 0, 0, 0, 0, 0, 0, 0] := by
  have hcount := size_t_of_length pixels width height hprod hlen
  have hnat : (width * height).toNat = pixels.length := by
    rw [← hlen]
    exact Int.toNat_natCast _
  have hS : (14 + 40 + size_t (int_mul width height) * 3) % 2 ^ 64 % 2 ^ 32
      = ((14 + 40 + (width * height).toNat * 3) % 2 ^ 32) := by
    rw [hcount, hnat]
    exact Nat.mod_mod_of_dvd _ (Dvd.intro (2 ^ 32) (by norm_num))
  have hW : (width % 2 ^ 32).toNat = width.toNat := by omega
  have hH : (height % 2 ^ 32).toNat = height.toNat := by omega
  have h0 : ((0 : ℤ) % 2 ^ 32).toNat = 0 := rfl
  simp only [BITMAPFILEHEADER.bytes, BITMAPINFOHEADER.bytes, write_bmp_bfh, write_bmp_bih,
    u16_bytes, u32_bytes, i32_bytes, hS, hW, hH, h0, List.cons_append, List.nil_append]
  rfl

/-- C5, amended: for every `width, height >= 0` whose product fits an `int`
(`width * height < 2 ^ 31`) and pixel buffer of length `width * height`, `write_bmp` emits, in
this order and with nothing in between, the 14 bytes of the file header, the 40 bytes of the
info header and the `3 * width * height` pixel bytes, `54 + 3 * width * height` bytes in all.
The 54 header bytes are given one by one; read back from the output, `bfType` is `0x4D42`,
`bfSize` is `14 + 40 + width * height * 3` as an unsigned 32-bit value, `bfOffBits` is 54,
`biWidth` is `width`, `biHeight` is `height`, `biPlanes` is 1, `biBitCount` is 24, and
`biCompression`, `biClrUsed`, `biClrImportant` are 0. -/
theorem write_bmp_layout {R : Type} (env : Env) (filename : String) (s : State R)
    (pixels : List RGB) (width height : ℤ)
    (hw : 0 ≤ width) (hw' : width < 2 ^ 31) (hh : 0 ≤ height) (hh' : height < 2 ^ 31)
    (hprod : width * height < 2 ^ 31)
    (hlen : (pixels.length : ℤ) = width * height) (hopen : env.fopen_w filename = true) :
    ∃ out, bmp_bytes pixels width height = some out ∧
      write_bmp env filename pixels width height s = some (s.write filename (Artifact.bmp out)) ∧
      out = [66, 77,
          UInt8.ofNat (((14 + 40 + (width * height).toNat * 3) % 2 ^ 32) % 256),
          UInt8.ofNat (((14 + 40 + (width * height).toNat * 3) % 2 ^ 32) / 256 % 256),
          UInt8.ofNat (((14 + 40 + (width * height).toNat * 3) % 2 ^ 32) / 65536 % 256),
          UInt8.ofNat (((14 + 40 + (width * height).toNat * 3) % 2 ^ 32) / 16777216 % 256),
          0, 0, 0, 0, 54, 0, 0, 0,
          40, 0, 0, 0,
          UInt8.ofNat (width.toNat % 256), UInt8.ofNat (width.toNat / 256 % 256),
          UInt8.ofNat (width.toNat / 65536 % 256), UInt8.ofNat (width.toNat / 16777216 % 256),
          UInt8.ofNat (height.toNat % 256), UInt8.ofNat (height.toNat / 256 % 256),
          UInt8.ofNat (height.toNat / 65536 % 256), UInt8.ofNat (height.toNat / 16777216 % 256),
          1, 0, 24, 0, 0, 0, 0, 0, 0, 0, 0, 0, 0, 0, 0, 0, 0, 0, 0, 0, 0, 0, 0, 0, 0, 0, 0, 0]
        ++ pixels.flatMap (fun p => [p.blue, p.green, p.red]) ∧
      (out.length : ℤ) = 54 + 3 * width * height ∧
      out.take 14 = (write_bmp_bfh width height).bytes ∧
      (out.drop 14).take 40 = (write_bmp_bih width height).bytes ∧
      out.drop 54 = pixels.flatMap RGB.bytes ∧
      get_u16 out 0 = 0x4D42 ∧
      (get_u32 out 2 : ℤ) = (14 + 40 + width * height * 3) % 2 ^ 32 ∧
      get_u32 out 10 = 54 ∧
      get_i32 out 18 = width ∧
      get_i32 out 22 = height ∧
      get_u16 out 26 = 1 ∧
      get_u16 out 28 = 24 ∧
      get_u32 out 30 = 0 ∧
      get_u32 out 46 = 0 ∧
      get_u32 out 50 = 0 ∧
      ((write_bmp_bfh width height).bfSize : ℤ) = (14 + 40 + width * height * 3) % 2 ^ 32 ∧
      (write_bmp_bfh width height).bfType = 0x4D42 ∧
      (write_bmp_bfh width height).bfOffBits = 54 ∧
      (write_bmp_bih width height).biWidth = width ∧
      (write_bmp_bih width height).biHeight = height ∧
      (write_bmp_bih width height).biPlanes = 1 ∧
      (write_bmp_bih width height).biBitCount = 24 ∧
      (write_bmp_bih width height).biCompression = 0 ∧
      (write_bmp_bih width height).biClrUsed = 0 ∧
      (write_bmp_bih width height).biClrImportant = 0 := by
  have hcount := size_t_of_length pixels width height hprod hlen
  have hbytes := bmp_bytes_eq pixels width height hcount
  have hhead := bmp_header_bytes pixels width height hw hw' hh hh' hprod hlen
  have hnat : (width * height).toNat = pixels.length := by
    rw [← hlen]
    exact Int.toNat_natCast _
  have hpx : ((pixels.flatMap RGB.bytes).length : ℤ) = 3 * width * height := by
    rw [flatMap_bytes_length, mul_assoc, ← hlen]
    push_cast
    ring
  have hsize : (((14 + 40 + (width * height).toNat * 3) % 2 ^ 32 : ℕ) : ℤ)
      = (14 + 40 + width * height * 3) % 2 ^ 32 := by
    rw [hnat, ← hlen]
    push_cast
    rfl
  have hSlt : (14 + 40 + (width * height).toNat * 3) % 2 ^ 32 < 2 ^ 32 :=
    Nat.mod_lt _ (by norm_num)
  have hbfSize : (write_bmp_bfh width height).bfSize
      = (14 + 40 + (width * height).toNat * 3) % 2 ^ 32 := by
    simp only [write_bmp_bfh, hcount, hnat]
    exact Nat.mod_mod_of_dvd _ (Dvd.intro (2 ^ 32) (by norm_num))
  have hrgb : (fun p : RGB => [p.blue, p.green, p.red]) = RGB.bytes := rfl
  have hWlt : width.toNat < 2 ^ 31 := by omega
  have hHlt : height.toNat < 2 ^ 31 := by omega
  have hWc : (width.toNat : ℤ) = width := Int.toNat_of_nonneg hw
  have hHc : (height.toNat : ℤ) = height := Int.toNat_of_nonneg hh
  generalize (14 + 40 + (width * height).toNat * 3) % 2 ^ 32 = S at *
  generalize width.toNat = W at *
  generalize height.toNat = H at *
  refine ⟨_, hbytes, by simp [write_bmp, hopen, hbytes], ?_, ?_, ?_, ?_, ?_, ?_, ?_, ?_, ?_, ?_,
    ?_, ?_, ?_, ?_, ?_, ?_, rfl, rfl, rfl, rfl, rfl, rfl, rfl, rfl, rfl⟩
  · rw [hhead, hrgb]
  · rw [List.length_append, List.length_append, bfh_bytes_length, bih_bytes_length]
    push_cast
    rw [hpx]
  · rw [List.append_assoc, List.take_left' (bfh_bytes_length _)]
  · rw [List.append_assoc, List.drop_left' (bfh_bytes_length _),
      List.take_left' (bih_bytes_length _)]
  · exact List.drop_left' (by
      rw [List.length_append, bfh_bytes_length, bih_bytes_length])
  · rw [hhead]
    simp [get_u16, byte_at, List.getD_cons_succ, UInt8.size]
  · rw [hhead, ← hsize]
    simp only [get_u32, byte_at, List.cons_append, List.getD_cons_succ, List.getD_cons_zero,
      u8_toNat_ofNat]
    exact congrArg Nat.cast (u32_reassemble S hSlt)
  · rw [hhead]
    simp [get_u32, byte_at, List.getD_cons_succ, UInt8.size]
  · rw [hhead, ← hWc]
    simp only [get_i32, get_u32, byte_at, List.cons_append, List.getD_cons_succ,
      List.getD_cons_zero, u8_toNat_ofNat]
    rw [u32_reassemble W (by omega), if_pos hWlt]
  · rw [hhead, ← hHc]
    simp only [get_i32, get_u32, byte_at, List.cons_append, List.getD_cons_succ,
      List.getD_cons_zero, u8_toNat_ofNat]
    rw [u32_reassemble H (by omega), if_pos hHlt]
  · rw [hhead]
    simp [get_u16, byte_at, List.getD_cons_succ, UInt8.size]
  · rw [hhead]
    simp [get_u16, byte_at, List.getD_cons_succ, UInt8.size]
  · rw [hhead]
    simp [get_u32, byte_at, List.getD_cons_succ, UInt8.size]
  · rw [hhead]
    simp [get_u32, byte_at, List.getD_cons_succ, UInt8.size]
  · rw [hhead]
    simp [get_u32, byte_at, List.getD_cons_succ, UInt8.size]
  · rw [hbfSize, hsize]

theorem write_bmp_layout_witness :
    (0 : ℤ) ≤ 1 ∧ (0 : ℤ) ≤ 2 ∧ (1 : ℤ) * 2 < 2 ^ 31 ∧
    ((([⟨1, 2, 3⟩, ⟨4, 5, 6⟩] : List RGB).length : ℕ) : ℤ) = 1 * 2 ∧
    ∃ out, bmp_bytes [⟨1, 2, 3⟩, ⟨4, 5, 6⟩] 1 2 = some out ∧
      (out.length : ℤ) = 54 + 3 * 1 * 2 ∧
      out.drop 54 = [1, 2, 3, 4, 5, 6] ∧
      get_u16 out 0 = 0x4D42 ∧ (get_u32 out 2 : ℤ) = (14 + 40 + 1 * 2 * 3) % 2 ^ 32 ∧
      get_u32 out 10 = 54 ∧ get_i32 out 18 = 1 ∧ get_i32 out 22 = 2 ∧ get_u16 out 26 = 1 ∧
      get_u16 out 28 = 24 ∧ get_u32 out 30 = 0 ∧ get_u32 out 46 = 0 ∧ get_u32 out 50 = 0 := by
  obtain ⟨out, hb, _, _, hlen, _, _, hdrop, h0, h2, h10, h18, h22, h26, h28, h30, h46, h50, _⟩ :=
    write_bmp_layout (Env.mk (fun _ => none) (fun _ => true) (fun _ _ => true) (fun _ => 0))
      "a.bmp" (State.mk 1 [] : State ℚ) [⟨1, 2, 3⟩, ⟨4, 5, 6⟩] 1 2 (by decide) (by decide)
      (by decide) (by decide) (by decide) (by decide) rfl
  exact ⟨by decide, by decide, by decide, by decide, out, hb, hlen, hdrop, h0, h2, h10, h18,
    h22, h26, h28, h30, h46, h50⟩

/-- C5 as first stated fails where `width * height` does not fit an `int`: for
`width = height = 65536` and a buffer of `65536 * 65536` pixels the `int` product is 0,
`write_bmp` takes no pixel record and emits the 54 header bytes only, not
`54 + 3 * 65536 * 65536` bytes. -/
theorem write_bmp_layout_int_overflow :
    (0 : ℤ) ≤ 65536 ∧ (65536 : ℤ) < 2 ^ 31 ∧
    (((List.replicate 4294967296 (⟨0, 0, 0⟩ : RGB)).length : ℕ) : ℤ) = 65536 * 65536 ∧
    int_mul 65536 65536 = 0 ∧
    ∃ out, bmp_bytes (List.replicate 4294967296 ⟨0, 0, 0⟩) 65536 65536 = some out ∧
      out.length = 54 ∧ (out.length : ℤ) ≠ 54 + 3 * 65536 * 65536 := by
  have hmul : int_mul 65536 65536 = 0 := by
    simp only [int_mul, wrap_int]
    norm_num
  have hzero : size_t 0 = 0 := rfl
  refine ⟨by norm_num, by norm_num, by rw [List.length_replicate]; norm_num, hmul,
    (write_bmp_bfh 65536 65536).bytes ++ (write_bmp_bih 65536 65536).bytes ++ [], ?_, ?_, ?_⟩
  · rw [bmp_bytes, hmul, hzero, fwrite_records, if_pos (Nat.zero_le _), List.take_zero]
    rfl
  · rfl
  · rw [List.append_nil, List.length_append, bfh_bytes_length, bih_bytes_length]
    norm_num

/-! ### Reading back what `write_bmp` wrote -/

theorem fread_file_header_bytes (h : BITMAPFILEHEADER) (rest : List UInt8) :
    ∃ h', fread_file_header (h.bytes ++ rest) = some (h', rest) := by
  have hlen : ¬ (h.bytes ++ rest).length < 14 := by
    rw [List.length_append, bfh_bytes_length]; omega
  have hdrop : (h.bytes ++ rest).drop 14 = rest := List.drop_left' (bfh_bytes_length h)
  generalize h.bytes ++ rest = stream at *
  simp only [fread_file_header, if_neg hlen, hdrop]
  exact ⟨_, rfl⟩

theorem get_i32_biWidth (h : BITMAPINFOHEADER) (rest : List UInt8)
    (hw : -2 ^ 31 ≤ h.biWidth ∧ h.biWidth < 2 ^ 31) :
    get_i32 (h.bytes ++ rest) 4 = h.biWidth := by
  have e : h.bytes ++ rest = u32_bytes h.biSize ++ i32_bytes h.biWidth
      ++ (i32_bytes h.biHeight ++ u16_bytes h.biPlanes
        ++ u16_bytes h.biBitCount ++ u32_bytes h.biCompression ++ u32_bytes h.biSizeImage
        ++ i32_bytes h.biXPelsPerMeter ++ i32_bytes h.biYPelsPerMeter ++ u32_bytes h.biClrUsed
        ++ u32_bytes h.biClrImportant ++ rest) := by
    simp only [BITMAPINFOHEADER.bytes, List.append_assoc]
  have hpre : (u32_bytes h.biSize).length = 4 := rfl
  rw [e, ← hpre]
  exact get_i32_bytes h.biWidth hw.1 hw.2 (u32_bytes h.biSize) _

theorem get_i32_biHeight (h : BITMAPINFOHEADER) (rest : List UInt8)
    (hh : -2 ^ 31 ≤ h.biHeight ∧ h.biHeight < 2 ^ 31) :
    get_i32 (h.bytes ++ rest) 8 = h.biHeight := by
  have e : h.bytes ++ rest = (u32_bytes h.biSize ++ i32_bytes h.biWidth)
      ++ i32_bytes h.biHeight ++ (u16_bytes h.biPlanes
        ++ u16_bytes h.biBitCount ++ u32_bytes h.biCompression ++ u32_bytes h.biSizeImage
        ++ i32_bytes h.biXPelsPerMeter ++ i32_bytes h.biYPelsPerMeter ++ u32_bytes h.biClrUsed
        ++ u32_bytes h.biClrImportant ++ rest) := by
    simp only [BITMAPINFOHEADER.bytes, List.append_assoc]
  have hpre : (u32_bytes h.biSize ++ i32_bytes h.biWidth).length = 8 := rfl
  rw [e, ← hpre]
  exact get_i32_bytes h.biHeight hh.1 hh.2 (u32_bytes h.biSize ++ i32_bytes h.biWidth) _

theorem fread_info_header_bytes (h : BITMAPINFOHEADER) (rest : List UInt8)
    (hw : -2 ^ 31 ≤ h.biWidth ∧ h.biWidth < 2 ^ 31)
    (hh : -2 ^ 31 ≤ h.biHeight ∧ h.biHeight < 2 ^ 31) :
    ∃ h', fread_info_header (h.bytes ++ rest) = some (h', rest) ∧
      h'.biWidth = h.biWidth ∧ h'.biHeight = h.biHeight := by
  have hlen : ¬ (h.bytes ++ rest).length < 40 := by
    rw [List.length_append, bih_bytes_length]; omega
  have hdrop : (h.bytes ++ rest).drop 40 = rest := List.drop_left' (bih_bytes_length h)
  have hwidth := get_i32_biWidth h rest hw
  have hheight := get_i32_biHeight h rest hh
  generalize h.bytes ++ rest = stream at *
  simp only [fread_info_header, if_neg hlen, hdrop]
  exact ⟨_, rfl, hwidth, hheight⟩

theorem read_step_of_bmp_bytes (env : Env) (input_file : String) (pixels : List RGB)
    (width height : ℤ) (hw : -2 ^ 31 ≤ width ∧ width < 2 ^ 31)
    (hh : -2 ^ 31 ≤ height ∧ height < 2 ^ 31) (hlen : (pixels.length : ℤ) = width * height)
    (hprod : width * height < 2 ^ 31)
    (hopen : env.fopen_rb input_file
      = some ((write_bmp_bfh width height).bytes ++ (write_bmp_bih width height).bytes
          ++ pixels.flatMap RGB.bytes))
    (hmalloc : env.malloc "pixels" (pixels.length * 3) = true) :
    read_step env input_file = some (width, height, pixels) := by
  obtain ⟨fh, hfh⟩ := fread_file_header_bytes (write_bmp_bfh width height)
    ((write_bmp_bih width height).bytes ++ pixels.flatMap RGB.bytes)
  obtain ⟨ih, hih, hiw, hihh⟩ := fread_info_header_bytes (write_bmp_bih width height)
    (pixels.flatMap RGB.bytes) hw hh
  have hiw' : ih.biWidth = width := hiw
  have hih' : ih.biHeight = height := hihh
  have hlo : -2 ^ 31 ≤ width * height := by
    rw [← hlen]
    omega
  have hmul : int_mul width height = width * height := int_mul_exact width height hlo hprod
  have hnat : (int_mul width height).toNat = pixels.length := by
    rw [hmul, ← hlen]; simp
  have hok : malloc_ok env "pixels" (int_mul width height) 3 = true := by
    simp only [malloc_ok, hnat, hmalloc, Bool.and_true, decide_eq_true_eq]
    rw [hmul, ← hlen]
    exact Int.natCast_nonneg _
  rw [read_step, hopen]
  simp only [List.append_assoc, hfh, hih, hiw', hih', hok, if_true, hnat, fread_pixels_flatMap]

/-- C4: round trip of the bitmap codec. For every image with `int` width and height, a pixel
sequence of length `width * height` and `54 + 3 * width * height` fitting in 32 bits, the
byte stream `write_bmp` produces, parsed by the read step of `extract_channels` (which opens
the file and obtains its `pixels` buffer), yields the same width, height and pixel
sequence. -/
theorem bmp_round_trip (env : Env) (input_file : String) (pixels : List RGB)
    (width height : ℤ) (hw : -2 ^ 31 ≤ width ∧ width < 2 ^ 31)
    (hh : -2 ^ 31 ≤ height ∧ height < 2 ^ 31) (hlen : (pixels.length : ℤ) = width * height)
    (hsize : 54 + 3 * width * height < 2 ^ 32)
    (hmalloc : env.malloc "pixels" (pixels.length * 3) = true) :
    ∃ bytes, bmp_bytes pixels width height = some bytes ∧
      (env.fopen_rb input_file = some bytes →
        read_step env input_file = some (width, height, pixels)) := by
  have hprod : width * height < 2 ^ 31 := by
    rw [mul_assoc] at hsize
    omega
  have hcount := size_t_of_length pixels width height hprod hlen
  refine ⟨_, bmp_bytes_eq pixels width height hcount, fun hopen => ?_⟩
  exact read_step_of_bmp_bytes env input_file pixels width height hw hh hlen hprod hopen hmalloc


theorem bmp_round_trip_witness :
    read_step (Env.mk (fun _ => bmp_bytes [⟨1, 2, 3⟩, ⟨4, 5, 6⟩] 1 2) (fun _ => true)
        (fun _ _ => true) (fun _ => 0)) "img/a.bmp"
      = some (1, 2, [⟨1, 2, 3⟩, ⟨4, 5, 6⟩]) := by
  obtain ⟨bytes, hb, h⟩ := bmp_round_trip
    (Env.mk (fun _ => bmp_bytes [⟨1, 2, 3⟩, ⟨4, 5, 6⟩] 1 2) (fun _ => true)
      (fun _ _ => true) (fun _ => 0)) "img/a.bmp" [⟨1, 2, 3⟩, ⟨4, 5, 6⟩] 1 2
    (by decide) (by decide) (by decide) (by decide) rfl
  exact h hb

/-- C6: for every input stream shorter than 54 bytes (too short for the 14-byte file header,
or for the 40-byte info header after it), the read step of `extract_channels` fails, and the
call returns with the state as it was: no file is written and `image_index` is unchanged. -/
theorem short_header_fails {R : Type} [Field R] (m : MathLib R) (env : Env) (input_file : String)
    (s : State R) (stream : List UInt8) (hopen : env.fopen_rb input_file = some stream)
    (hshort : stream.length < 54) :
    read_step env input_file = none ∧ extract_channels m env input_file s = some s := by
  have hread : read_step env input_file = none := by
    rw [read_step, hopen]
    by_cases h14 : stream.length < 14
    · simp [fread_file_header, h14]
    · have h40 : (stream.drop 14).length < 40 := by
        rw [List.length_drop]; omega
      have hinfo : fread_info_header (stream.drop 14) = none := by
        rw [fread_info_header, if_pos h40]
      simp only [fread_file_header, if_neg h14, hinfo]
  exact ⟨hread, by rw [extract_channels, hread]⟩

theorem short_header_fails_witness :
    read_step (Env.mk (fun _ => some (List.replicate 20 0)) (fun _ => true) (fun _ _ => true)
        (fun _ => 0)) "img/a.bmp" = none ∧
    extract_channels (MathLib.mk (0 : ℚ) id id)
        (Env.mk (fun _ => some (List.replicate 20 0)) (fun _ => true) (fun _ _ => true)
          (fun _ => 0)) "img/a.bmp" (State.mk 1 []) = some (State.mk 1 []) :=
  short_header_fails (MathLib.mk (0 : ℚ) id id)
    (Env.mk (fun _ => some (List.replicate 20 0)) (fun _ => true) (fun _ _ => true)
      (fun _ => 0)) "img/a.bmp" (State.mk 1 []) (List.replicate 20 0) rfl (by decide)


/-! ## Properties of the channel split -/

theorem split_channels_eq (pixels : List RGB) (n : ℕ) (hn : n ≤ pixels.length) :
    split_channels pixels n
      = some ((pixels.take n).map (fun p => { red := p.red, green := 0, blue := 0 }),
          (pixels.take n).map (fun p => { red := 0, green := p.green, blue := 0 }),
          (pixels.take n).map (fun p => { red := 0, green := 0, blue := p.blue })) := by
  induction n with
  | zero => rfl
  | succ n ih =>
    have hlt : n < pixels.length := by omega
    rw [split_channels, ih (by omega), List.take_succ, List.getElem?_eq_getElem hlt]
    simp only [Option.toList_some, List.map_append, List.map_cons, List.map_nil]
    rfl

theorem digit_char_toNat (d : ℕ) (hd : d < 10) : (digit_char d).toNat - 48 = d := by
  interval_cases d <;> rfl

theorem digit_char_ne_minus (d : ℕ) (hd : d < 10) : digit_char d ≠ '-' := by
  interval_cases d <;> decide

theorem ofDigits_replicate_zero (z : ℕ) : Nat.ofDigits 10 (List.replicate z 0) = 0 := by
  induction z with
  | zero => rfl
  | succ z ih => simp [List.replicate_succ, Nat.ofDigits_cons, ih]

theorem map_undigit_digits (k : ℕ) :
    ((Nat.digits 10 k).map digit_char).map (fun c => c.toNat - 48) = Nat.digits 10 k := by
  rw [List.map_map]
  conv_rhs => rw [← List.map_id (Nat.digits 10 k)]
  apply List.map_congr_left
  intro d hd
  exact digit_char_toNat d (Nat.digits_lt_base (by norm_num) hd)

/-- The digits of a natural number, padded with zeros in front, give the number back. -/
theorem decode_padded (z k : ℕ) :
    Nat.ofDigits 10
        ((List.replicate z '0' ++ (Nat.digits 10 k).reverse.map digit_char).reverse.map
          (fun c => c.toNat - 48)) = k := by
  rw [List.reverse_append, List.map_append, ← List.map_reverse, List.reverse_reverse,
    map_undigit_digits, List.reverse_replicate, List.map_replicate, Nat.ofDigits_append,
    Nat.ofDigits_digits]
  have h0 : ('0' : Char).toNat - 48 = 0 := rfl
  rw [h0, ofDigits_replicate_zero]
  simp

theorem minus_not_mem_padded (z k : ℕ) :
    '-' ∉ List.replicate z '0' ++ (Nat.digits 10 k).reverse.map digit_char := by
  intro h
  rcases List.mem_append.mp h with h | h
  · have := List.eq_of_mem_replicate h
    exact absurd this (by decide)
  · obtain ⟨d, hd, hdc⟩ := List.mem_map.mp h
    exact digit_char_ne_minus d (Nat.digits_lt_base (by norm_num) (List.mem_reverse.mp hd)) hdc

/-- Two numbers with the same `%02d` text are equal. -/
theorem fmt_02d_injective (i j : ℤ) (h : fmt_02d i = fmt_02d j) : i = j := by
  have h : fmt_02d_chars i = fmt_02d_chars j := congrArg String.data h
  by_cases hi : i < 0 <;> by_cases hj : j < 0
  · simp only [fmt_02d_chars, if_pos hi, if_pos hj, List.cons.injEq, true_and] at h
    have h1 := decode_padded 0 i.natAbs
    have h2 := decode_padded 0 j.natAbs
    simp only [List.replicate_zero, List.nil_append] at h1 h2
    rw [h, h2] at h1
    omega
  · simp only [fmt_02d_chars, if_pos hi, if_neg hj] at h
    have hmem : '-' ∈ '-' :: (Nat.digits 10 i.natAbs).reverse.map digit_char :=
      List.mem_cons_self _ _
    rw [h] at hmem
    exact absurd hmem (minus_not_mem_padded _ _)
  · simp only [fmt_02d_chars, if_neg hi, if_pos hj] at h
    have hmem : '-' ∈ '-' :: (Nat.digits 10 j.natAbs).reverse.map digit_char :=
      List.mem_cons_self _ _
    rw [← h] at hmem
    exact absurd hmem (minus_not_mem_padded _ _)
  · simp only [fmt_02d_chars, if_neg hi, if_neg hj] at h
    have h1 := decode_padded (2 - (Nat.digits 10 i.toNat).length) i.toNat
    have h2 := decode_padded (2 - (Nat.digits 10 j.toNat).length) j.toNat
    rw [h, h2] at h1
    omega

theorem append_fmt_inj (pre suf : String) (i j : ℤ)
    (h : pre ++ fmt_02d i ++ suf = pre ++ fmt_02d j ++ suf) : i = j := by
  have h' := congrArg String.data h
  simp only [String.data_append, List.append_assoc] at h'
  have h'' := List.append_cancel_right (List.append_cancel_left h')
  exact fmt_02d_injective i j (String.ext h'')

/-- A name of image `i` is a name of image `j` only when `i = j`. -/
theorem output_names_index (i j : ℤ) (name : String) (hi : name ∈ output_names i)
    (hj : name ∈ output_names j) : i = j := by
  simp only [output_names, List.mem_cons, List.mem_singleton, List.not_mem_nil, or_false] at hi hj
  simp only [red_bmp_name, green_bmp_name, blue_bmp_name, red_dat_name, red_txt_name,
    green_dat_name, green_txt_name, blue_dat_name, blue_txt_name] at hi hj
  rcases hi with hi | hi | hi | hi | hi | hi | hi | hi | hi <;>
    rcases hj with hj | hj | hj | hj | hj | hj | hj | hj | hj <;>
    first
    | exact append_fmt_inj _ _ i j (hi.symm.trans hj)
    | (exfalso
       have h' := congrArg String.data (hi.symm.trans hj)
       simp only [String.data_append] at h'
       simp at h')


/-! ## The pipeline -/

/-- The call `fft(x, N)` stays inside a buffer that holds at least `N` elements: it
returns, and the buffer keeps its length. -/
theorem fft_in_bounds {R : Type} [Field R] (m : MathLib R) (n : ℕ) :
    ∀ (N : ℤ) (x : List (Complex R)), N.toNat ≤ n → N ≤ x.length →
      ∃ out, fft m x N = some out ∧ out.length = x.length := by
  induction n with
  | zero =>
    intro N x hn _
    exact ⟨x, by rw [fft, if_pos (by omega)], rfl⟩
  | succ n ih =>
    intro N x hn hx
    by_cases h1 : N ≤ 1
    · exact ⟨x, by rw [fft, if_pos h1], rfl⟩
    · obtain ⟨E, O, hs, hE, hO, _, _⟩ := fft_split_spec x (N / 2).toNat (by omega)
      obtain ⟨E', hfE, hE'⟩ := ih (N / 2) E (by omega) (by omega)
      obtain ⟨O', hfO, hO'⟩ := ih (N / 2) O (by omega) (by omega)
      obtain ⟨y, hy, hylen, _⟩ := fft_combine_spec m N E' O' x (N / 2).toNat rfl
        (by omega) (by omega) (by omega) (N / 2).toNat le_rfl
      refine ⟨y, ?_, hylen⟩
      rw [fft, if_neg h1, hs]
      simp only [hfE, hfO]
      exact hy

theorem load_samples_eq {R : Type} [Field R] (channel : List RGB) (n : ℕ)
    (hn : n ≤ channel.length) :
    (load_samples channel n : Option (List (Complex R)))
      = some ((channel.take n).map fun p => ⟨(p.red.toNat : R), 0⟩) := by
  induction n with
  | zero => rfl
  | succ n ih =>
    have hlt : n < channel.length := by omega
    rw [load_samples, ih (by omega), List.take_succ, List.getElem?_eq_getElem hlt]
    simp only [Option.toList_some, List.map_append, List.map_cons, List.map_nil]
    rfl

theorem channel_spectrum_in_bounds {R : Type} [Field R] (m : MathLib R) (channel : List RGB)
    (width height : ℤ) (hlen : channel.length = (int_mul width height).toNat) :
    ∃ out, channel_spectrum m channel width height = some out ∧
      out.length = (int_mul width height).toNat := by
  have hload := @load_samples_eq R _ channel (int_mul width height).toNat (by omega)
  obtain ⟨out, hout, hlen'⟩ := fft_in_bounds m (int_mul width height).toNat (int_mul width height)
    ((channel.take (int_mul width height).toNat).map fun p => ⟨(p.red.toNat : R), 0⟩) le_rfl
    (by simp [← hlen]; omega)
  refine ⟨out, ?_, ?_⟩
  · rw [channel_spectrum, hload]
    exact hout
  · rw [hlen']; simp [← hlen]

/-- The state after some files were added and nothing else changed. -/
theorem write_names {R : Type} (s : State R) (name : String) (data : Artifact R) :
    (s.write name data).image_index = s.image_index ∧
      (s.write name data).files.map Prod.fst = s.files.map Prod.fst ++ [name] := by
  simp [State.write]

theorem size_t_le_toNat (p : ℤ) (hp : 0 ≤ p) : size_t p ≤ p.toNat := by
  simp only [size_t]
  omega

theorem write_bmp_names {R : Type} (env : Env) (name : String) (pixels : List RGB)
    (width height : ℤ) (s : State R) (hp : 0 ≤ int_mul width height)
    (hlen : pixels.length = (int_mul width height).toNat) :
    ∃ s', write_bmp env name pixels width height s = some s' ∧
      s'.image_index = s.image_index ∧
      s'.files.map Prod.fst = s.files.map Prod.fst ++ [name].filter env.fopen_w := by
  have hcount : size_t (int_mul width height) ≤ pixels.length := by
    rw [hlen]; exact size_t_le_toNat _ hp
  by_cases ho : env.fopen_w name = true
  · simp only [write_bmp, ho, if_true, bmp_bytes, fwrite_records, if_pos hcount]
    exact ⟨_, rfl, rfl, by simp [State.write, List.filter, ho]⟩
  · simp only [write_bmp, ho]
    exact ⟨_, rfl, rfl, by simp [List.filter, ho]⟩

theorem apply_fft_names {R : Type} [Field R] (m : MathLib R) (env : Env) (channel : List RGB)
    (width height : ℤ) (dat txt : String) (s : State R) (hp : 0 ≤ int_mul width height)
    (hlen : channel.length = (int_mul width height).toNat) :
    ∃ s', apply_fft m env channel width height dat txt s = some s' ∧
      s'.image_index = s.image_index ∧
      s'.files.map Prod.fst = s.files.map Prod.fst ++ [dat, txt].filter env.fopen_w := by
  obtain ⟨out, hout, holen⟩ := channel_spectrum_in_bounds m channel width height hlen
  have hcount : size_t (int_mul width height) ≤ out.length := by
    rw [holen]; exact size_t_le_toNat _ hp
  have hcount' : (int_mul width height).toNat ≤ out.length := by omega
  by_cases hd : env.fopen_w dat = true <;> by_cases ht : env.fopen_w txt = true
  · simp only [apply_fft, hout, hd, ht, if_true, fwrite_records, if_pos hcount,
      save_fft_to_txt, if_pos hcount']
    exact ⟨_, rfl, rfl, by simp [State.write, List.filter, hd, ht]⟩
  · simp only [apply_fft, hout, hd, ht, if_true, fwrite_records, if_pos hcount,
      save_fft_to_txt]
    exact ⟨_, rfl, rfl, by simp [State.write, List.filter, hd, ht]⟩
  · simp only [apply_fft, hout, hd, ht, if_true, fwrite_records, if_pos hcount',
      save_fft_to_txt]
    exact ⟨_, rfl, rfl, by simp [State.write, List.filter, hd, ht]⟩
  · simp only [apply_fft, hout, hd, ht, save_fft_to_txt]
    exact ⟨_, rfl, rfl, by simp [List.filter, hd, ht]⟩


theorem read_step_some (env : Env) (input_file : String) (width height : ℤ)
    (pixels : List RGB) (h : read_step env input_file = some (width, height, pixels)) :
    0 ≤ int_mul width height ∧ pixels.length = (int_mul width height).toNat := by
  unfold read_step at h
  split at h
  · exact absurd h (by simp)
  · split at h
    · exact absurd h (by simp)
    · split at h
      · exact absurd h (by simp)
      · dsimp only at h
        split at h
        · rename_i hok
          simp only [Option.some.injEq, Prod.mk.injEq] at h
          obtain ⟨hw, hh, hp⟩ := h
          subst hw hh
          simp only [malloc_ok, Bool.and_eq_true, decide_eq_true_eq] at hok
          exact ⟨hok.1, by rw [← hp]; simp [fread_pixels]⟩
        · exact absurd h (by simp)

/-- A call of `extract_channels` that gets past its early returns writes the files of
`output_names image_index` that can be opened, in this order, and increments the `int`
`image_index`; any other call leaves the state as it was. -/
theorem extract_channels_spec {R : Type} [Field R] (m : MathLib R) (env : Env)
    (input_file : String) (s : State R) :
    ∃ s', extract_channels m env input_file s = some s' ∧
      (completes env input_file = false → s' = s) ∧
      (completes env input_file = true →
        s'.image_index = wrap_int (s.image_index + 1) ∧
        s'.files.map Prod.fst
          = s.files.map Prod.fst ++ (output_names s.image_index).filter env.fopen_w) := by
  unfold extract_channels completes
  cases hread : read_step env input_file with
  | none => exact ⟨s, rfl, fun _ => rfl, fun h => by simp at h⟩
  | some r =>
    obtain ⟨width, height, pixels⟩ := r
    obtain ⟨hp, hlen⟩ := read_step_some env input_file width height pixels hread
    by_cases hm : (malloc_ok env "red_channel" (int_mul width height) 3
        && malloc_ok env "green_channel" (int_mul width height) 3
        && malloc_ok env "blue_channel" (int_mul width height) 3) = true
    · simp only [hm, if_true]
      rw [split_channels_eq pixels _ (by omega)]
      simp only []
      have hl : ∀ f : RGB → RGB, ((pixels.take (int_mul width height).toNat).map f).length
          = (int_mul width height).toNat := by
        intro f; simp; omega
      generalize hr : (pixels.take (int_mul width height).toNat).map
        (fun p => ({ red := p.red, green := 0, blue := 0 } : RGB)) = red_channel
      generalize hg : (pixels.take (int_mul width height).toNat).map
        (fun p => ({ red := 0, green := p.green, blue := 0 } : RGB)) = green_channel
      generalize hb : (pixels.take (int_mul width height).toNat).map
        (fun p => ({ red := 0, green := 0, blue := p.blue } : RGB)) = blue_channel
      have hlr : red_channel.length = (int_mul width height).toNat := by rw [← hr]; exact hl _
      have hlg : green_channel.length = (int_mul width height).toNat := by rw [← hg]; exact hl _
      have hlb : blue_channel.length = (int_mul width height).toNat := by rw [← hb]; exact hl _
      obtain ⟨s1, h1, hi1, hf1⟩ := write_bmp_names env (red_bmp_name s.image_index)
        red_channel width height s hp hlr
      obtain ⟨s2, h2, hi2, hf2⟩ := write_bmp_names env (green_bmp_name s.image_index)
        green_channel width height s1 hp hlg
      obtain ⟨s3, h3, hi3, hf3⟩ := write_bmp_names env (blue_bmp_name s.image_index)
        blue_channel width height s2 hp hlb
      obtain ⟨s4, h4, hi4, hf4⟩ := apply_fft_names m env red_channel width height
        (red_dat_name s.image_index) (red_txt_name s.image_index) s3 hp hlr
      obtain ⟨s5, h5, hi5, hf5⟩ := apply_fft_names m env green_channel width height
        (green_dat_name s.image_index) (green_txt_name s.image_index) s4 hp hlg
      obtain ⟨s6, h6, hi6, hf6⟩ := apply_fft_names m env blue_channel width height
        (blue_dat_name s.image_index) (blue_txt_name s.image_index) s5 hp hlb
      refine ⟨{ s6 with image_index := wrap_int (s6.image_index + 1) }, ?_, fun h => by simp at h,
        fun _ => ⟨?_, ?_⟩⟩
      · simp only [Option.bind_eq_bind, h1, Option.some_bind, h2, h3, h4, h5, h6]
        rfl
      · show wrap_int (s6.image_index + 1) = wrap_int (s.image_index + 1)
        rw [hi6, hi5, hi4, hi3, hi2, hi1]
      · show s6.files.map Prod.fst = _
        rw [hf6, hf5, hf4, hf3, hf2, hf1]
        simp only [output_names, List.append_assoc, ← List.filter_append, List.cons_append,
          List.nil_append]
    · simp only [hm]
      exact ⟨s, rfl, fun _ => rfl, fun h => by simp at h⟩


theorem written_between_of_names {R : Type} (s s' : State R) (names : List String)
    (h : s'.files.map Prod.fst = s.files.map Prod.fst ++ names) :
    written_between s s' = names := by
  rw [written_between, List.map_drop, h]
  exact List.drop_left' (by simp)

theorem written_between_self {R : Type} (s : State R) : written_between s s = [] := by
  simp [written_between]

theorem process_images_in_directory_append {R : Type} [Field R] (m : MathLib R)
    (l1 l2 : List (Env × String)) (s : State R) :
    process_images_in_directory m (l1 ++ l2) s = (process_images_in_directory m l1 s).bind (process_images_in_directory m l2) := by
  induction l1 generalizing s with
  | nil => rfl
  | cons a l1 ih =>
    obtain ⟨env, f⟩ := a
    simp only [List.cons_append, process_images_in_directory]
    cases extract_channels m env f s with
    | none => rfl
    | some s1 => exact ih s1

theorem wrap_int_wrap_int (v : ℤ) : wrap_int (wrap_int v) = wrap_int v := by
  simp only [wrap_int]
  omega

theorem wrap_int_ne (a : ℤ) (k : ℕ) (h1 : 1 ≤ k) (h2 : k < 4294967296) :
    wrap_int (a + k) ≠ wrap_int a := by
  simp only [wrap_int]
  omega

theorem wrap_int_exact (a : ℤ) (hlo : -2 ^ 31 ≤ a) (hhi : a < 2 ^ 31) : wrap_int a = a := by
  simp only [wrap_int]
  omega

theorem wrap_int_succ_add (a : ℤ) (c : ℕ) :
    wrap_int (wrap_int (a + 1) + c) = wrap_int (a + ((c + 1 : ℕ) : ℤ)) := by
  simp only [wrap_int]
  push_cast
  omega

/-- A run over any list of inputs returns; `image_index` has then been incremented once
for each of the `c` calls that completed, no more than one per input. -/
theorem process_images_in_directory_total {R : Type} [Field R] (m : MathLib R)
    (l : List (Env × String)) :
    ∀ s : State R, wrap_int s.image_index = s.image_index →
      ∃ s' c, process_images_in_directory m l s = some s' ∧ c ≤ l.length ∧
        s'.image_index = wrap_int (s.image_index + (c : ℤ)) := by
  induction l with
  | nil => exact fun s hs => ⟨s, 0, rfl, le_rfl, by simp [hs]⟩
  | cons a l ih =>
    intro s hs
    obtain ⟨env, f⟩ := a
    obtain ⟨s1, h1, hno, hyes⟩ := extract_channels_spec m env f s
    cases hc : completes env f with
    | false =>
      obtain rfl : s1 = s := hno hc
      obtain ⟨s2, c, h2, hle, hidx⟩ := ih s1 hs
      exact ⟨s2, c, by simp only [process_images_in_directory, h1, h2],
        by rw [List.length_cons]; omega, hidx⟩
    | true =>
      have hstep := (hyes hc).1
      obtain ⟨s2, c, h2, hle, hidx⟩ := ih s1 (by rw [hstep, wrap_int_wrap_int])
      refine ⟨s2, c + 1, by simp only [process_images_in_directory, h1, h2],
        by rw [List.length_cons]; omega, ?_⟩
      rw [hidx, hstep, wrap_int_succ_add]

/-- A run in which every call completes increments `image_index` once per input. -/
theorem process_images_in_directory_complete {R : Type} [Field R] (m : MathLib R)
    (l : List (Env × String)) (hall : ∀ e ∈ l, completes e.1 e.2 = true) :
    ∀ s : State R, wrap_int s.image_index = s.image_index →
      ∃ s', process_images_in_directory m l s = some s' ∧
        s'.image_index = wrap_int (s.image_index + (l.length : ℤ)) := by
  induction l with
  | nil => exact fun s hs => ⟨s, rfl, by simp [hs]⟩
  | cons a l ih =>
    intro s hs
    obtain ⟨env, f⟩ := a
    obtain ⟨s1, h1, _, hyes⟩ := extract_channels_spec m env f s
    have hc : completes env f = true := hall (env, f) (List.mem_cons_self _ _)
    have hstep := (hyes hc).1
    obtain ⟨s2, h2, hidx⟩ := ih (fun e he => hall e (List.mem_cons_of_mem _ he)) s1
      (by rw [hstep, wrap_int_wrap_int])
    refine ⟨s2, by simp only [process_images_in_directory, h1, h2], ?_⟩
    rw [hidx, hstep, wrap_int_succ_add, List.length_cons]

theorem process_images_in_directory_take_succ {R : Type} [Field R] (m : MathLib R)
    (inputs : List (Env × String)) (p : ℕ) (hp : p < inputs.length) (s0 : State R)
    (hs0 : wrap_int s0.image_index = s0.image_index) :
    ∃ sp sp' c, process_images_in_directory m (inputs.take p) s0 = some sp ∧
      process_images_in_directory m (inputs.take (p + 1)) s0 = some sp' ∧
      extract_channels m inputs[p].1 inputs[p].2 sp = some sp' ∧
      c ≤ p ∧ sp.image_index = wrap_int (s0.image_index + (c : ℤ)) := by
  obtain ⟨sp, c, hsp, hc, hidx⟩ := process_images_in_directory_total m (inputs.take p) s0 hs0
  obtain ⟨sp', hsp', _, _⟩ := extract_channels_spec m inputs[p].1 inputs[p].2 sp
  refine ⟨sp, sp', c, hsp, ?_, hsp', by rw [List.length_take] at hc; omega, hidx⟩
  rw [List.take_succ, List.getElem?_eq_getElem hp, process_images_in_directory_append, hsp]
  simp only [Option.toList_some, Option.some_bind, process_images_in_directory]
  have hget : inputs.get ⟨p, hp⟩ = inputs[p] := rfl
  rw [hget, hsp']

/-- What one call writes: nothing, leaving the state as it was, or names of its own
`image_index`, which it then increments. -/
theorem extract_channels_written {R : Type} [Field R] (m : MathLib R) (env : Env)
    (input_file : String) (s s' : State R) (h : extract_channels m env input_file s = some s') :
    (written_between s s' = [] ∧ s' = s ∧ completes env input_file = false) ∨
      ((∀ name ∈ written_between s s', name ∈ output_names s.image_index) ∧
        s'.image_index = wrap_int (s.image_index + 1) ∧ completes env input_file = true) := by
  obtain ⟨s1, h1, hno, hyes⟩ := extract_channels_spec m env input_file s
  rw [h] at h1
  obtain rfl : s' = s1 := Option.some.inj h1
  cases hc : completes env input_file with
  | false =>
    left
    rw [hno hc]
    exact ⟨written_between_self s, rfl, rfl⟩
  | true =>
    right
    obtain ⟨hidx, hfiles⟩ := hyes hc
    refine ⟨fun name hname => ?_, hidx, rfl⟩
    rw [written_between_of_names s s' _ hfiles] at hname
    exact (List.mem_filter.mp hname).1

/-- Every file read in `one_pixel_env` gets past the early returns of `extract_channels`. -/
theorem completes_one_pixel (input_file : String) :
    completes one_pixel_env input_file = true := by
  have hread := read_step_of_bmp_bytes one_pixel_env input_file [⟨0, 0, 0⟩] 1 1
    (by decide) (by decide) (by decide) (by decide) rfl rfl
  rw [completes, hread]
  have h11 : int_mul 1 1 = 1 := int_mul_exact 1 1 (by norm_num) (by norm_num)
  simp only [h11]
  rfl

/-- In a run whose inputs all complete, the index before input `p` is `1 + p` reduced to an
`int`, and the files written for input `p` are the names of that index that can be
opened. -/
theorem written_when_all_complete {R : Type} [Field R] (m : MathLib R)
    (l : List (Env × String)) (hall : ∀ e ∈ l, completes e.1 e.2 = true) (p : ℕ)
    (hp : p < l.length) :
    ∃ sp sp', process_images_in_directory m (l.take p) (State.mk 1 [] : State R) = some sp ∧
      process_images_in_directory m (l.take (p + 1)) (State.mk 1 [] : State R) = some sp' ∧
      sp.image_index = wrap_int (1 + (p : ℤ)) ∧
      sp'.image_index = wrap_int (sp.image_index + 1) ∧
      written_between sp sp' = (output_names sp.image_index).filter l[p].1.fopen_w := by
  have hone : wrap_int (State.mk 1 [] : State R).image_index
      = (State.mk 1 [] : State R).image_index := wrap_int_exact 1 (by norm_num) (by norm_num)
  obtain ⟨sp, sp', c, hsp, hsp', hep, _, _⟩ :=
    process_images_in_directory_take_succ m l p hp (State.mk 1 [] : State R) hone
  obtain ⟨sp2, h2, hidx⟩ := process_images_in_directory_complete m (l.take p)
    (fun e he => hall e (List.mem_of_mem_take he)) (State.mk 1 [] : State R) hone
  rw [hsp] at h2
  obtain rfl : sp = sp2 := Option.some.inj h2
  obtain ⟨s', hs', _, hyes⟩ := extract_channels_spec m l[p].1 l[p].2 sp
  rw [hep] at hs'
  obtain rfl : sp' = s' := Option.some.inj hs'
  have hc := hall l[p] (List.getElem_mem hp)
  have hidx0 : sp.image_index = wrap_int (1 + ((l.take p).length : ℤ)) := hidx
  refine ⟨sp, sp', hsp, hsp', ?_, (hyes hc).1, written_between_of_names _ _ _ (hyes hc).2⟩
  rw [hidx0, List.length_take, Nat.min_eq_left hp.le]

theorem one_pixel_inputs_length (n : ℕ) : (one_pixel_inputs n).length = n := by
  rw [one_pixel_inputs, List.length_map, List.length_range]

theorem one_pixel_inputs_complete (n : ℕ) :
    ∀ e ∈ one_pixel_inputs n, completes e.1 e.2 = true := by
  intro e he
  rw [one_pixel_inputs, List.mem_map] at he
  obtain ⟨i, _, rfl⟩ := he
  exact completes_one_pixel _

theorem one_pixel_inputs_fopen_w (n p : ℕ) (hp : p < (one_pixel_inputs n).length) :
    (one_pixel_inputs n)[p].1.fopen_w = fun _ => true := by
  have h : (one_pixel_inputs n)[p].1 = one_pixel_env := by
    simp only [one_pixel_inputs, List.getElem_map]
  rw [h]
  rfl

/-- In a directory of one-pixel bitmaps the files written for input `p` are the nine names of
the index `1 + p` reduced to an `int`. -/
theorem one_pixel_inputs_written {R : Type} [Field R] (m : MathLib R) (n p : ℕ) (hp : p < n) :
    ∃ sp sp',
      process_images_in_directory m ((one_pixel_inputs n).take p) (State.mk 1 [] : State R)
        = some sp ∧
      process_images_in_directory m ((one_pixel_inputs n).take (p + 1))
        (State.mk 1 [] : State R) = some sp' ∧
      sp.image_index = wrap_int (1 + (p : ℤ)) ∧
      sp'.image_index = wrap_int (sp.image_index + 1) ∧
      written_between sp sp' = output_names (wrap_int (1 + (p : ℤ))) := by
  have hp' : p < (one_pixel_inputs n).length := by
    rw [one_pixel_inputs_length]
    exact hp
  obtain ⟨sp, sp', hsp, hsp', hidx, hstep, hw⟩ :=
    written_when_all_complete m (one_pixel_inputs n) (one_pixel_inputs_complete n) p hp'
  refine ⟨sp, sp', hsp, hsp', hidx, hstep, ?_⟩
  rw [hw, one_pixel_inputs_fopen_w n p hp', hidx]
  exact List.filter_eq_self.mpr (fun _ _ => rfl)

/-- C10, amended: output names never collide within a run of at most `2 ^ 32` inputs. A run
over any list of inputs, started with `image_index = 1`, returns. Every call of
`extract_channels` that completes its pipeline increments the `int` `image_index`, by
exactly 1 while it is below `2 ^ 31 - 1`, and the files it writes are those of the nine names
of its `image_index` (three previews, three binary spectra, three text spectra) that can be
opened: names that depend on the index and the channel only, not on the input file name; any
other call changes nothing. Before each of the first `2 ^ 31 - 2` inputs of a run the index
lies between 1 and one more than the number of inputs before it, so the increment is exact
there. The files written for two different inputs of the run have no name in common, and
the names of two different indices have no name in common. -/
theorem output_names_never_collide {R : Type} [Field R] (m : MathLib R)
    (inputs : List (Env × String)) (hrun : inputs.length ≤ 2 ^ 32) :
    (∃ final, process_images_in_directory m inputs (State.mk 1 [] : State R) = some final) ∧
    (∀ (env : Env) (input_file : String) (s : State R),
      ∃ s', extract_channels m env input_file s = some s' ∧
        (completes env input_file = true →
          s'.image_index = wrap_int (s.image_index + 1) ∧
          (-2 ^ 31 ≤ s.image_index → s.image_index < 2 ^ 31 - 1 →
            s'.image_index = s.image_index + 1) ∧
          written_between s s' = (output_names s.image_index).filter env.fopen_w) ∧
        (completes env input_file = false → s' = s)) ∧
    (∀ (p : ℕ) (hp : p < inputs.length), (p : ℤ) + 2 < 2 ^ 31 →
      ∃ sp sp',
        process_images_in_directory m (inputs.take p) (State.mk 1 [] : State R) = some sp ∧
        process_images_in_directory m (inputs.take (p + 1)) (State.mk 1 [] : State R)
          = some sp' ∧
        1 ≤ sp.image_index ∧ sp.image_index ≤ 1 + (p : ℤ) ∧
        (completes inputs[p].1 inputs[p].2 = true → sp'.image_index = sp.image_index + 1) ∧
        (completes inputs[p].1 inputs[p].2 = false → sp' = sp)) ∧
    (∀ p q : ℕ, p < q → q < inputs.length →
      ∃ sp sp' sq sq',
        process_images_in_directory m (inputs.take p) (State.mk 1 [] : State R) = some sp ∧
        process_images_in_directory m (inputs.take (p + 1)) (State.mk 1 [] : State R)
          = some sp' ∧
        process_images_in_directory m (inputs.take q) (State.mk 1 [] : State R) = some sq ∧
        process_images_in_directory m (inputs.take (q + 1)) (State.mk 1 [] : State R)
          = some sq' ∧
        ∀ name ∈ written_between sp sp', name ∉ written_between sq sq') ∧
    (∀ i j : ℤ, i ≠ j → ∀ name ∈ output_names i, name ∉ output_names j) := by
  have hone : wrap_int (State.mk 1 [] : State R).image_index
      = (State.mk 1 [] : State R).image_index := wrap_int_exact 1 (by norm_num) (by norm_num)
  refine ⟨?_, ?_, ?_, ?_, ?_⟩
  · obtain ⟨final, _, h, _⟩ := process_images_in_directory_total m inputs
      (State.mk 1 [] : State R) hone
    exact ⟨final, h⟩
  · intro env input_file s
    obtain ⟨s', h, hno, hyes⟩ := extract_channels_spec m env input_file s
    refine ⟨s', h, fun hc => ⟨(hyes hc).1, fun hlo hhi => ?_,
      written_between_of_names s s' _ (hyes hc).2⟩, hno⟩
    rw [(hyes hc).1]
    exact wrap_int_exact _ (by omega) (by omega)
  · intro p hp hsmall
    obtain ⟨sp, sp', c, hsp, hsp', hep, hc, hidx⟩ :=
      process_images_in_directory_take_succ m inputs p hp (State.mk 1 [] : State R) hone
    have hidx0 : sp.image_index = wrap_int (1 + (c : ℤ)) := hidx
    have hidx' : sp.image_index = 1 + (c : ℤ) := by
      rw [hidx0]
      exact wrap_int_exact _ (by omega) (by omega)
    refine ⟨sp, sp', hsp, hsp', by omega, by omega, fun hcomp => ?_, fun hcomp => ?_⟩
    · rcases extract_channels_written m _ _ sp sp' hep with ⟨_, _, hf⟩ | ⟨_, hstep, _⟩
      · rw [hcomp] at hf
        exact absurd hf (by simp)
      · rw [hstep]
        exact wrap_int_exact _ (by omega) (by omega)
    · rcases extract_channels_written m _ _ sp sp' hep with ⟨_, hsame, _⟩ | ⟨_, _, ht⟩
      · exact hsame
      · rw [hcomp] at ht
        exact absurd ht (by simp)
  · intro p q hpq hq
    obtain ⟨sp, sp', cp, hsp, hsp', hep, _, hidxp⟩ :=
      process_images_in_directory_take_succ m inputs p (by omega) (State.mk 1 [] : State R) hone
    obtain ⟨sq, sq', _, hsq, hsq', heq, _, _⟩ :=
      process_images_in_directory_take_succ m inputs q hq (State.mk 1 [] : State R) hone
    refine ⟨sp, sp', sq, sq', hsp, hsp', hsq, hsq', ?_⟩
    intro name hnp hnq
    rcases extract_channels_written m _ _ sp sp' hep with ⟨hempty, _, _⟩ | ⟨hsub, hstep, _⟩
    · rw [hempty] at hnp
      exact absurd hnp (List.not_mem_nil _)
    · rcases extract_channels_written m _ _ sq sq' heq with ⟨hempty, _, _⟩ | ⟨hsub', _, _⟩
      · rw [hempty] at hnq
        exact absurd hnq (List.not_mem_nil _)
      · have hsame := output_names_index _ _ name (hsub name hnp) (hsub' name hnq)
        have hsplit : inputs.take q
            = inputs.take (p + 1) ++ (inputs.take q).drop (p + 1) := by
          conv_lhs => rw [← List.take_append_drop (p + 1) (inputs.take q)]
          rw [List.take_take, Nat.min_eq_left (by omega)]
        rw [hsplit, process_images_in_directory_append, hsp'] at hsq
        simp only [Option.some_bind] at hsq
        obtain ⟨s2, c, h2, hc, hidx⟩ := process_images_in_directory_total m
          ((inputs.take q).drop (p + 1)) sp' (by rw [hstep, wrap_int_wrap_int])
        rw [hsq] at h2
        obtain rfl : sq = s2 := Option.some.inj h2
        have hclen : c + (p + 1) ≤ q := by
          rw [List.length_drop, List.length_take] at hc
          omega
        have h32 : (2 : ℕ) ^ 32 = 4294967296 := by norm_num
        rw [h32] at hrun
        have hin : wrap_int sp.image_index = sp.image_index := by
          rw [hidxp, wrap_int_wrap_int]
        rw [hstep, wrap_int_succ_add] at hidx
        apply wrap_int_ne sp.image_index (c + 1) (by omega) (by omega)
        rw [← hidx, hin, hsame]
  · intro i j hij name hi hj
    exact hij (output_names_index i j name hi hj)

theorem output_names_never_collide_witness :
    (one_pixel_inputs 2).length ≤ 2 ^ 32 ∧
    (∃ final : State ℝ,
      process_images_in_directory (MathLib.mk Real.pi Real.cos Real.sin) (one_pixel_inputs 2)
        (State.mk 1 []) = some final) ∧
    (∃ sp sp' sq sq' : State ℝ,
      process_images_in_directory (MathLib.mk Real.pi Real.cos Real.sin)
        ((one_pixel_inputs 2).take 0) (State.mk 1 []) = some sp ∧
      process_images_in_directory (MathLib.mk Real.pi Real.cos Real.sin)
        ((one_pixel_inputs 2).take (0 + 1)) (State.mk 1 []) = some sp' ∧
      process_images_in_directory (MathLib.mk Real.pi Real.cos Real.sin)
        ((one_pixel_inputs 2).take 1) (State.mk 1 []) = some sq ∧
      process_images_in_directory (MathLib.mk Real.pi Real.cos Real.sin)
        ((one_pixel_inputs 2).take (1 + 1)) (State.mk 1 []) = some sq' ∧
      ∀ name ∈ written_between sp sp', name ∉ written_between sq sq') :=
  ⟨by decide,
   (output_names_never_collide (MathLib.mk Real.pi Real.cos Real.sin) (one_pixel_inputs 2)
      (by decide)).1,
   (output_names_never_collide (MathLib.mk Real.pi Real.cos Real.sin) (one_pixel_inputs 2)
      (by decide)).2.2.2.1 0 1 (by decide) (by decide)⟩

/-- C10 as stated fails on a long run: the `int` `image_index` has 32 bits. In a directory of
`2 ^ 32 + 1` one-pixel bitmaps, every one of which completes the pipeline, the index before
input number `2 ^ 31 - 2` is `2147483647` and the call leaves `-2147483648`, not one more; the
index before input number `2 ^ 32` is 1 again, so the nine files written for it bear the
names of the nine files written for the first input. -/
theorem output_names_collide_after_wrap :
    completes one_pixel_env "img/0.bmp" = true ∧
    (one_pixel_inputs 4294967297).length = 4294967297 ∧
    (∃ sp sp' : State ℝ,
      process_images_in_directory (MathLib.mk Real.pi Real.cos Real.sin)
        ((one_pixel_inputs 4294967297).take 2147483646) (State.mk 1 []) = some sp ∧
      process_images_in_directory (MathLib.mk Real.pi Real.cos Real.sin)
        ((one_pixel_inputs 4294967297).take (2147483646 + 1)) (State.mk 1 []) = some sp' ∧
      sp.image_index = 2147483647 ∧ sp'.image_index = -2147483648 ∧
      sp'.image_index ≠ sp.image_index + 1) ∧
    (∃ sp sp' sq sq' : State ℝ,
      process_images_in_directory (MathLib.mk Real.pi Real.cos Real.sin)
        ((one_pixel_inputs 4294967297).take 0) (State.mk 1 []) = some sp ∧
      process_images_in_directory (MathLib.mk Real.pi Real.cos Real.sin)
        ((one_pixel_inputs 4294967297).take (0 + 1)) (State.mk 1 []) = some sp' ∧
      process_images_in_directory (MathLib.mk Real.pi Real.cos Real.sin)
        ((one_pixel_inputs 4294967297).take 4294967296) (State.mk 1 []) = some sq ∧
      process_images_in_directory (MathLib.mk Real.pi Real.cos Real.sin)
        ((one_pixel_inputs 4294967297).take (4294967296 + 1)) (State.mk 1 []) = some sq' ∧
      sp.image_index = 1 ∧ sq.image_index = 1 ∧
      written_between sp sp' = output_names 1 ∧
      written_between sq sq' = output_names 1 ∧
      red_bmp_name 1 ∈ written_between sp sp' ∧
      red_bmp_name 1 ∈ written_between sq sq') := by
  have hmax : wrap_int (1 + ((2147483646 : ℕ) : ℤ)) = 2147483647 := by
    norm_num [wrap_int]
  have hmin : wrap_int ((2147483647 : ℤ) + 1) = -2147483648 := by
    norm_num [wrap_int]
  have hfirst : wrap_int (1 + ((0 : ℕ) : ℤ)) = 1 := by
    norm_num [wrap_int]
  have hagain : wrap_int (1 + ((4294967296 : ℕ) : ℤ)) = 1 := by
    norm_num [wrap_int]
  have hmem : red_bmp_name 1 ∈ output_names 1 := List.mem_cons_self _ _
  refine ⟨completes_one_pixel _, one_pixel_inputs_length _, ?_, ?_⟩
  · obtain ⟨sp, sp', hsp, hsp', hidx, hstep, _⟩ :=
      one_pixel_inputs_written (MathLib.mk Real.pi Real.cos Real.sin) 4294967297 2147483646
        (by norm_num)
    rw [hmax] at hidx
    rw [hidx, hmin] at hstep
    refine ⟨sp, sp', hsp, hsp', hidx, hstep, ?_⟩
    rw [hidx, hstep]
    norm_num
  · obtain ⟨sp, sp', hsp, hsp', hidx, _, hw⟩ :=
      one_pixel_inputs_written (MathLib.mk Real.pi Real.cos Real.sin) 4294967297 0
        (by norm_num)
    obtain ⟨sq, sq', hsq, hsq', hidxq, _, hwq⟩ :=
      one_pixel_inputs_written (MathLib.mk Real.pi Real.cos Real.sin) 4294967297 4294967296
        (by norm_num)
    rw [hfirst] at hidx hw
    rw [hagain] at hidxq hwq
    refine ⟨sp, sp', sq, sq', hsp, hsp', hsq, hsq', hidx, hidxq, hw, hwq, ?_, ?_⟩
    · rw [hw]
      exact hmem
    · rw [hwq]
      exact hmem

/-! ## The spectra of the three channels -/

theorem fft_length_one (a : Complex ℝ) :
    fft (MathLib.mk Real.pi Real.cos Real.sin) [a] 1 = some [a] := by
  rw [fft]; simp

theorem fft_length_two (a b : Complex ℝ) :
    fft (MathLib.mk Real.pi Real.cos Real.sin) [a, b] 2
      = some [⟨a.real + b.real, a.imag + b.imag⟩, ⟨a.real - b.real, a.imag - b.imag⟩] := by
  rw [fft]
  have h2 : ((2 : ℤ) / 2) = 1 := by norm_num
  have h2' : ((2 : ℤ) / 2).toNat = 1 := by rw [h2]; rfl
  simp [h2, h2', fft_split, fft_length_one, fft_combine, storeAt]

theorem fft_length_four (a b c d : Complex ℝ) :
    fft (MathLib.mk Real.pi Real.cos Real.sin) [a, b, c, d] 4
      = fft_combine (MathLib.mk Real.pi Real.cos Real.sin) 4
          [⟨a.real + c.real, a.imag + c.imag⟩, ⟨a.real - c.real, a.imag - c.imag⟩]
          [⟨b.real + d.real, b.imag + d.imag⟩, ⟨b.real - d.real, b.imag - d.imag⟩]
          [a, b, c, d] 2 := by
  have hh : ((4 : ℤ) / 2) = 2 := by norm_num
  have hh' : ((2 : ℤ)).toNat = 2 := rfl
  have hs : fft_split [a, b, c, d] 2 = some ([a, c], [b, d]) := rfl
  rw [fft, if_neg (by norm_num), hh, hh', hs]
  simp only [fft_length_two]

theorem load_samples_four (p0 p1 p2 p3 : RGB) :
    (load_samples [p0, p1, p2, p3] 4 : Option (List (Complex ℝ)))
      = some [⟨(p0.red.toNat : ℝ), 0⟩, ⟨(p1.red.toNat : ℝ), 0⟩, ⟨(p2.red.toNat : ℝ), 0⟩,
          ⟨(p3.red.toNat : ℝ), 0⟩] := rfl

theorem red_only_spectrum :
    channel_spectrum (MathLib.mk Real.pi Real.cos Real.sin)
        (List.replicate 4 { red := 255, green := 0, blue := 0 }) 2 2
      = some [⟨1020, 0⟩, ⟨0, 0⟩, ⟨0, 0⟩, ⟨0, 0⟩] := by
  have h4 : ((4 : ℤ)).toNat = 4 := rfl
  have h4' : int_mul 2 2 = 4 := by
    rw [int_mul_exact 2 2 (by norm_num) (by norm_num)]
    norm_num
  have hred : (((255 : UInt8).toNat : ℕ) : ℝ) = 255 := by norm_num
  have h2 : ((2 : ℤ)).toNat = 2 := rfl
  rw [channel_spectrum, h4', h4]
  simp only [List.replicate, load_samples_four, fft_length_four, hred]
  norm_num [fft_combine, storeAt, h2, List.set]

theorem green_only_spectrum :
    channel_spectrum (MathLib.mk Real.pi Real.cos Real.sin)
        (List.replicate 4 { red := 0, green := 255, blue := 0 }) 2 2
      = some [⟨0, 0⟩, ⟨0, 0⟩, ⟨0, 0⟩, ⟨0, 0⟩] := by
  have h4 : ((4 : ℤ)).toNat = 4 := rfl
  have h4' : int_mul 2 2 = 4 := by
    rw [int_mul_exact 2 2 (by norm_num) (by norm_num)]
    norm_num
  have hzero : (((0 : UInt8).toNat : ℕ) : ℝ) = 0 := by norm_num
  have h2 : ((2 : ℤ)).toNat = 2 := rfl
  rw [channel_spectrum, h4', h4]
  simp only [List.replicate, load_samples_four, fft_length_four, hzero]
  norm_num [fft_combine, storeAt, h2, List.set]

theorem blue_only_spectrum :
    channel_spectrum (MathLib.mk Real.pi Real.cos Real.sin)
        (List.replicate 4 { red := 0, green := 0, blue := 255 }) 2 2
      = some [⟨0, 0⟩, ⟨0, 0⟩, ⟨0, 0⟩, ⟨0, 0⟩] := by
  have h4 : ((4 : ℤ)).toNat = 4 := rfl
  have h4' : int_mul 2 2 = 4 := by
    rw [int_mul_exact 2 2 (by norm_num) (by norm_num)]
    norm_num
  have hzero : (((0 : UInt8).toNat : ℕ) : ℝ) = 0 := by norm_num
  have h2 : ((2 : ℤ)).toNat = 2 := rfl
  rw [channel_spectrum, h4', h4]
  simp only [List.replicate, load_samples_four, fft_length_four, hzero]
  norm_num [fft_combine, storeAt, h2, List.set]

/-- C2 at the 2x2 all-white image. The 66 bytes `write_bmp` makes of the image are the input
file; every `malloc` and every `fopen` succeeds. The read step returns the image, the
channel loop gives the three buffers below, and `extract_channels` writes the nine files
of image 1: the spectrum files of the red channel hold `[(1020,0),(0,0),(0,0),(0,0)]`,
those of the green and of the blue channel hold four zeros, because `apply_fft` reads the
`red` byte of buffers in which that byte is 0. -/
theorem white_2x2_spectra :
    ∃ file bmp_red bmp_green bmp_blue,
      bmp_bytes (List.replicate 4 ⟨255, 255, 255⟩) 2 2 = some file ∧
      read_step (Env.mk (fun _ => some file) (fun _ => true) (fun _ _ => true) (fun _ => 0))
          "img/white.bmp" = some (2, 2, List.replicate 4 ⟨255, 255, 255⟩) ∧
      split_channels (List.replicate 4 ⟨255, 255, 255⟩) ((2 : ℤ) * 2).toNat
        = some (List.replicate 4 { red := 255, green := 0, blue := 0 },
            List.replicate 4 { red := 0, green := 255, blue := 0 },
            List.replicate 4 { red := 0, green := 0, blue := 255 }) ∧
      bmp_bytes (List.replicate 4 { red := 255, green := 0, blue := 0 }) 2 2 = some bmp_red ∧
      bmp_bytes (List.replicate 4 { red := 0, green := 255, blue := 0 }) 2 2 = some bmp_green ∧
      bmp_bytes (List.replicate 4 { red := 0, green := 0, blue := 255 }) 2 2 = some bmp_blue ∧
      extract_channels (MathLib.mk Real.pi Real.cos Real.sin)
          (Env.mk (fun _ => some file) (fun _ => true) (fun _ _ => true) (fun _ => 0))
          "img/white.bmp" (State.mk 1 [])
        = some (State.mk 2
            [("output_channels/red_channel_01.bmp", Artifact.bmp bmp_red),
             ("output_channels/green_channel_01.bmp", Artifact.bmp bmp_green),
             ("output_channels/blue_channel_01.bmp", Artifact.bmp bmp_blue),
             ("output_fft_DAT/red_channel_fft_01.dat",
               Artifact.dat [⟨1020, 0⟩, ⟨0, 0⟩, ⟨0, 0⟩, ⟨0, 0⟩]),
             ("output_fft_TXT/red_channel_fft_01.txt",
               Artifact.txt [⟨1020, 0⟩, ⟨0, 0⟩, ⟨0, 0⟩, ⟨0, 0⟩]),
             ("output_fft_DAT/green_channel _fft_01.dat",
               Artifact.dat [⟨0, 0⟩, ⟨0, 0⟩, ⟨0, 0⟩, ⟨0, 0⟩]),
             ("output_fft_TXT/green_channel_fft_01.txt",
               Artifact.txt [⟨0, 0⟩, ⟨0, 0⟩, ⟨0, 0⟩, ⟨0, 0⟩]),
             ("output_fft_DAT/blue_channel_fft_01.dat",
               Artifact.dat [⟨0, 0⟩, ⟨0, 0⟩, ⟨0, 0⟩, ⟨0, 0⟩]),
             ("output_fft_TXT/blue_channel_fft_01.txt",
               Artifact.txt [⟨0, 0⟩, ⟨0, 0⟩, ⟨0, 0⟩, ⟨0, 0⟩])]) := by
  have hmul : int_mul 2 2 = 4 := by
    rw [int_mul_exact 2 2 (by norm_num) (by norm_num)]
    norm_num
  have hcount : size_t (int_mul 2 2) = 4 := by
    rw [hmul]
    rfl
  have hidx : wrap_int 2 = 2 := by norm_num [wrap_int]
  have h4n : ((4 : ℤ)).toNat = 4 := rfl
  have hcount4 : size_t 4 = 4 := rfl
  have hfile := bmp_bytes_eq (List.replicate 4 ⟨255, 255, 255⟩) 2 2 hcount
  have h4 : ((2 : ℤ) * 2).toNat = 4 := rfl
  have hsplit : split_channels (List.replicate 4 ⟨255, 255, 255⟩) 4
      = some (List.replicate 4 { red := 255, green := 0, blue := 0 },
          List.replicate 4 { red := 0, green := 255, blue := 0 },
          List.replicate 4 { red := 0, green := 0, blue := 255 }) := rfl
  have hread := read_step_of_bmp_bytes
    (Env.mk (fun _ => some ((write_bmp_bfh 2 2).bytes ++ (write_bmp_bih 2 2).bytes
      ++ (List.replicate 4 (⟨255, 255, 255⟩ : RGB)).flatMap RGB.bytes)) (fun _ => true)
      (fun _ _ => true) (fun _ => 0))
    "img/white.bmp" (List.replicate 4 ⟨255, 255, 255⟩) 2 2 (by decide) (by decide) (by decide)
    (by decide) rfl rfl
  have hnames : red_bmp_name 1 = "output_channels/red_channel_01.bmp" ∧
      green_bmp_name 1 = "output_channels/green_channel_01.bmp" ∧
      blue_bmp_name 1 = "output_channels/blue_channel_01.bmp" ∧
      red_dat_name 1 = "output_fft_DAT/red_channel_fft_01.dat" ∧
      red_txt_name 1 = "output_fft_TXT/red_channel_fft_01.txt" ∧
      green_dat_name 1 = "output_fft_DAT/green_channel _fft_01.dat" ∧
      green_txt_name 1 = "output_fft_TXT/green_channel_fft_01.txt" ∧
      blue_dat_name 1 = "output_fft_DAT/blue_channel_fft_01.dat" ∧
      blue_txt_name 1 = "output_fft_TXT/blue_channel_fft_01.txt" := by
    have hfmt : fmt_02d 1 = "01" := by
      have : fmt_02d_chars 1 = ['0', '1'] := by
        simp [fmt_02d_chars, digit_char]
      rw [fmt_02d, this]
    simp only [red_bmp_name, green_bmp_name, blue_bmp_name, red_dat_name, red_txt_name,
      green_dat_name, green_txt_name, blue_dat_name, blue_txt_name, hfmt]
    decide
  obtain ⟨n1, n2, n3, n4, n5, n6, n7, n8, n9⟩ := hnames
  refine ⟨_, _, _, _, hfile, hread, by rw [h4]; exact hsplit,
    bmp_bytes_eq (List.replicate 4 { red := 255, green := 0, blue := 0 }) 2 2 hcount,
    bmp_bytes_eq (List.replicate 4 { red := 0, green := 255, blue := 0 }) 2 2 hcount,
    bmp_bytes_eq (List.replicate 4 { red := 0, green := 0, blue := 255 }) 2 2 hcount, ?_⟩
  rw [extract_channels, hread]
  simp only [malloc_ok, hmul, h4n, hsplit, write_bmp, apply_fft, save_fft_to_txt, fwrite_records,
    red_only_spectrum, green_only_spectrum, blue_only_spectrum, hcount4, bmp_bytes,
    n1, n2, n3, n4, n5, n6, n7, n8, n9]
  simp [State.write, hidx]


/-! ## Lengths that are not a power of two -/

/-- On three elements `fft` combines the first two and leaves the third alone. -/
theorem fft_length_three (a b c : Complex ℝ) :
    fft (MathLib.mk Real.pi Real.cos Real.sin) [a, b, c] 3
      = some [⟨a.real + b.real, a.imag + b.imag⟩, ⟨a.real - b.real, a.imag - b.imag⟩, c] := by
  have h3 : ((3 : ℤ) / 2) = 1 := by norm_num
  have h1 : ((1 : ℤ)).toNat = 1 := rfl
  have hs : fft_split [a, b, c] 1 = some ([a], [b]) := rfl
  rw [fft, if_neg (by norm_num), h3, h1, hs]
  simp only [fft_length_one]
  norm_num [fft_combine, storeAt, h3, h1, List.set]

theorem dft_three_impulse_zero :
    dft (MathLib.mk Real.pi Real.cos Real.sin) [⟨0, 0⟩, ⟨0, 0⟩, ⟨1, 0⟩] 0 = ⟨1, 0⟩ := by
  simp [dft, Finset.sum_range_succ, czero]

theorem load_samples_three (p0 p1 p2 : RGB) :
    (load_samples [p0, p1, p2] 3 : Option (List (Complex ℝ)))
      = some [⟨(p0.red.toNat : ℝ), 0⟩, ⟨(p1.red.toNat : ℝ), 0⟩, ⟨(p2.red.toNat : ℝ), 0⟩] := rfl

theorem three_ne_two_pow (m : ℕ) : 2 ^ m ≠ 3 := by
  intro h
  cases m with
  | zero => simp at h
  | succ m =>
    have : 2 ∣ 3 := by
      rw [← h, pow_succ]
      exact Dvd.intro_left _ rfl
    omega

/-- C11: `apply_fft` hands `N = width * height` to `fft` with no test that `N` is a power of
two: for every channel buffer of `width * height` pixels the call returns the result of
`fft` on the loaded samples with that `N`, the product being the `int` product, which is the
exact one whenever that is an `int`. For `N = 3`, which is no power of two, `fft`
returns without an error and its result differs from the length-3 discrete Fourier
transform: on any input it leaves element 2 as it was, neither reading nor writing it, so
`[(0,0),(0,0),(1,0)]` comes back as `[(0,0),(0,0),(1,0)]` while element 0 of the transform is
`(1,0)`; a 3x1 channel with these red bytes gets this spectrum written to its two files. -/
theorem fft_wrong_when_not_power_of_two :
    (∀ (channel : List RGB) (width height : ℤ),
      channel.length = (int_mul width height).toNat →
      ∃ samples out, load_samples channel (int_mul width height).toNat = some samples ∧
        fft (MathLib.mk Real.pi Real.cos Real.sin) samples (int_mul width height) = some out ∧
        channel_spectrum (MathLib.mk Real.pi Real.cos Real.sin) channel width height
          = some out) ∧
    (∀ width height : ℤ, -2 ^ 31 ≤ width * height → width * height < 2 ^ 31 →
      int_mul width height = width * height) ∧
    (∀ m : ℕ, 2 ^ m ≠ 3) ∧
    (∀ a b c : Complex ℝ, fft (MathLib.mk Real.pi Real.cos Real.sin) [a, b, c] 3
      = some [⟨a.real + b.real, a.imag + b.imag⟩, ⟨a.real - b.real, a.imag - b.imag⟩, c]) ∧
    fft (MathLib.mk Real.pi Real.cos Real.sin) [⟨0, 0⟩, ⟨0, 0⟩, ⟨1, 0⟩] 3
      = some [⟨0, 0⟩, ⟨0, 0⟩, ⟨1, 0⟩] ∧
    dft (MathLib.mk Real.pi Real.cos Real.sin) [⟨0, 0⟩, ⟨0, 0⟩, ⟨1, 0⟩] 0 = ⟨1, 0⟩ ∧
    ([⟨0, 0⟩, ⟨0, 0⟩, ⟨1, 0⟩] : List (Complex ℝ))[0]?
      ≠ some (dft (MathLib.mk Real.pi Real.cos Real.sin) [⟨0, 0⟩, ⟨0, 0⟩, ⟨1, 0⟩] 0) ∧
    (∀ (env : Env) (dat txt : String) (s : State ℝ),
      env.fopen_w dat = true → env.fopen_w txt = true →
      apply_fft (MathLib.mk Real.pi Real.cos Real.sin) env
          [⟨0, 0, 0⟩, ⟨0, 0, 0⟩, ⟨0, 0, 1⟩] 3 1 dat txt s
        = some ((s.write dat (Artifact.dat [⟨0, 0⟩, ⟨0, 0⟩, ⟨1, 0⟩])).write txt
            (Artifact.txt [⟨0, 0⟩, ⟨0, 0⟩, ⟨1, 0⟩]))) := by
  have hfft : fft (MathLib.mk Real.pi Real.cos Real.sin) [⟨0, 0⟩, ⟨0, 0⟩, ⟨1, 0⟩] 3
      = some [⟨0, 0⟩, ⟨0, 0⟩, ⟨1, 0⟩] := by
    rw [fft_length_three]
    norm_num
  refine ⟨?_, int_mul_exact, three_ne_two_pow, fft_length_three, hfft, dft_three_impulse_zero,
    ?_, ?_⟩
  · intro channel width height hlen
    obtain ⟨out, hout, _⟩ := channel_spectrum_in_bounds
      (MathLib.mk Real.pi Real.cos Real.sin) channel width height hlen
    have hload := @load_samples_eq ℝ _ channel (int_mul width height).toNat (by omega)
    refine ⟨_, out, hload, ?_, hout⟩
    rw [channel_spectrum, hload] at hout
    exact hout
  · rw [dft_three_impulse_zero]
    simp
  · intro env dat txt s hd ht
    have h31 : int_mul 3 1 = 3 := by
      rw [int_mul_exact 3 1 (by norm_num) (by norm_num)]
      norm_num
    have h3 : ((3 : ℤ)).toNat = 3 := rfl
    have hc : size_t 3 = 3 := rfl
    have h0 : (((0 : UInt8).toNat : ℕ) : ℝ) = 0 := by norm_num
    have h1 : (((1 : UInt8).toNat : ℕ) : ℝ) = 1 := by norm_num
    have hspec : channel_spectrum (MathLib.mk Real.pi Real.cos Real.sin)
        [⟨0, 0, 0⟩, ⟨0, 0, 0⟩, ⟨0, 0, 1⟩] 3 1 = some [⟨0, 0⟩, ⟨0, 0⟩, ⟨1, 0⟩] := by
      rw [channel_spectrum, h31, h3, load_samples_three]
      simp only [h0, h1]
      exact hfft
    simp [apply_fft, hspec, hd, ht, h31, h3, hc, fwrite_records, save_fft_to_txt]


/-! ## `fft` stays inside its buffers -/

/-- One level of `fft` on a buffer that holds at least `N > 1` elements: the two halves,
the two recursive calls and the combining loop all return, and the result is known at every
index. -/
theorem fft_step {R : Type} [Field R] (m : MathLib R) (N : ℤ) (x : List (Complex R))
    (h1 : ¬ N ≤ 1) (hx : N ≤ x.length) :
    ∃ E O E' O' out, fft_split x (N / 2).toNat = some (E, O) ∧
      E.length = (N / 2).toNat ∧ O.length = (N / 2).toNat ∧
      (∀ i, i < (N / 2).toNat → E[i]? = x[i * 2]?) ∧
      (∀ i, i < (N / 2).toNat → O[i]? = x[i * 2 + 1]?) ∧
      fft m E (N / 2) = some E' ∧ E'.length = (N / 2).toNat ∧
      fft m O (N / 2) = some O' ∧ O'.length = (N / 2).toNat ∧
      fft_combine m N E' O' x (N / 2).toNat = some out ∧
      fft m x N = some out ∧ out.length = x.length ∧
      ∀ j, out[j]? = if j < (N / 2).toNat then some (butterflyLo m N E' O' j)
        else if (N / 2).toNat ≤ j ∧ j < (N / 2).toNat + (N / 2).toNat then
          some (butterflyHi m N E' O' (j - (N / 2).toNat))
        else x[j]? := by
  obtain ⟨E, O, hs, hE, hO, hEi, hOi⟩ := fft_split_spec x (N / 2).toNat (by omega)
  obtain ⟨E', hfE, hE'⟩ := fft_in_bounds m (N / 2).toNat (N / 2) E le_rfl (by omega)
  obtain ⟨O', hfO, hO'⟩ := fft_in_bounds m (N / 2).toNat (N / 2) O le_rfl (by omega)
  obtain ⟨y, hy, hylen, hyget⟩ := fft_combine_spec m N E' O' x (N / 2).toNat rfl
    (by omega) (by omega) (by omega) (N / 2).toNat le_rfl
  refine ⟨E, O, E', O', y, hs, hE, hO, hEi, hOi, hfE, by omega, hfO, by omega, hy, ?_, hylen,
    hyget⟩
  rw [fft, if_neg h1, hs]
  simp only [hfE, hfO]
  exact hy

/-- The call `fft(x, N)` does not touch the elements from index `2 * (N / 2)` on. -/
theorem fft_tail_unchanged {R : Type} [Field R] (m : MathLib R) (N : ℤ) (x out : List (Complex R))
    (hx : N ≤ x.length) (hout : fft m x N = some out) (j : ℕ) (hj : 2 * (N / 2) ≤ (j : ℤ)) :
    out[j]? = x[j]? := by
  by_cases h1 : N ≤ 1
  · rw [fft, if_pos h1] at hout
    rw [← Option.some.inj hout]
  · obtain ⟨E, O, E', O', y, _, _, _, _, _, _, _, _, _, _, hy, _, hyget⟩ := fft_step m N x h1 hx
    rw [hout] at hy
    rw [Option.some.inj hy, hyget j, if_neg (by omega), if_neg (by omega)]

/-- The call `fft(x, N)` uses the first `n` elements of `x` only, for any `n >= N`: on the
buffer cut to `n` elements it returns the same result, cut to `n` elements. -/
theorem fft_take {R : Type} [Field R] (m : MathLib R) (N : ℤ) (x out : List (Complex R))
    (n : ℕ) (hn : N ≤ n) (hx : N ≤ x.length) (hout : fft m x N = some out) :
    fft m (x.take n) N = some (out.take n) := by
  by_cases h1 : N ≤ 1
  · rw [fft, if_pos h1] at hout
    rw [fft, if_pos h1, ← Option.some.inj hout]
  · obtain ⟨E, O, E', O', y, _, hE, hO, hEi, hOi, hfE, hE', hfO, hO', _, hy, hylen, hyget⟩ :=
      fft_step m N x h1 hx
    have hxt : N ≤ (x.take n).length := by
      rw [List.length_take]; omega
    obtain ⟨Et, Ot, Et', Ot', yt, _, hEt, hOt, hEti, hOti, hfEt, _, hfOt, _, _, hyt, hytlen,
      hytget⟩ := fft_step m N (x.take n) h1 hxt
    have hEE : Et = E := by
      apply List.ext_getElem?
      intro i
      by_cases hi : i < (N / 2).toNat
      · rw [hEti i hi, hEi i hi, List.getElem?_take]
        rw [if_pos (by omega)]
      · rw [List.getElem?_eq_none (by omega), List.getElem?_eq_none (by omega)]
    have hOO : Ot = O := by
      apply List.ext_getElem?
      intro i
      by_cases hi : i < (N / 2).toNat
      · rw [hOti i hi, hOi i hi, List.getElem?_take]
        rw [if_pos (by omega)]
      · rw [List.getElem?_eq_none (by omega), List.getElem?_eq_none (by omega)]
    subst hEE hOO
    rw [hfE] at hfEt
    rw [hfO] at hfOt
    obtain rfl : E' = Et' := Option.some.inj hfEt
    obtain rfl : O' = Ot' := Option.some.inj hfOt
    rw [hout] at hy
    obtain rfl : out = y := Option.some.inj hy
    rw [hyt]
    congr 1
    apply List.ext_getElem?
    intro j
    rw [hytget j, List.getElem?_take, List.getElem?_take, hyget j]
    by_cases hj : j < n
    · simp only [if_pos hj]
    · simp only [if_neg hj]
      rw [if_neg (by omega), if_neg (by omega)]


theorem fft_split_bound {R : Type} (x : List (Complex R)) (h : ℕ)
    (hs : ∃ eo, fft_split x h = some eo) : h = 0 ∨ 2 * h ≤ x.length := by
  cases h with
  | zero => exact Or.inl rfl
  | succ h =>
    right
    obtain ⟨eo, heo⟩ := hs
    rw [fft_split] at heo
    cases hprev : fft_split x h with
    | none => rw [hprev] at heo; exact absurd heo (by simp)
    | some eo' =>
      by_cases hb : h * 2 + 1 < x.length
      · omega
      · have hnone : x[h * 2 + 1]? = none := List.getElem?_eq_none (by omega)
        rw [hprev, hnone] at heo
        cases x[h * 2]? <;> simp at heo

/-- The first loop of `fft` returns exactly when the indices `i * 2` and `i * 2 + 1` it
reads, `i < h`, are inside the buffer. -/
theorem fft_split_returns_iff {R : Type} (x : List (Complex R)) (h : ℕ) :
    (∃ eo, fft_split x h = some eo)
      ↔ ∀ idx ∈ (List.range h).flatMap (fun i => [i * 2, i * 2 + 1]), idx < x.length := by
  constructor
  · intro hs idx hidx
    obtain ⟨i, hi, hmem⟩ := List.mem_flatMap.mp hidx
    have hi' : i < h := List.mem_range.mp hi
    have hb := fft_split_bound x h hs
    simp only [List.mem_cons, List.mem_singleton, List.not_mem_nil, or_false] at hmem
    omega
  · intro hall
    by_cases h0 : h = 0
    · subst h0
      exact ⟨_, rfl⟩
    · have hlast : (h - 1) * 2 + 1 < x.length := by
        apply hall
        apply List.mem_flatMap.mpr
        exact ⟨h - 1, List.mem_range.mpr (by omega), by simp⟩
      obtain ⟨E, O, hs, _⟩ := fft_split_spec x h (by omega)
      exact ⟨_, hs⟩

theorem storeAt_some {α : Type} (buf out : List α) (i : ℕ) (v : α)
    (h : storeAt buf i v = some out) : i < buf.length ∧ out.length = buf.length := by
  unfold storeAt at h
  split at h
  · rename_i hi
    refine ⟨hi, ?_⟩
    rw [← Option.some.inj h]
    simp
  · exact absurd h (by simp)

/-- The second loop of `fft`, where it returns, has stayed inside the three buffers: every
`k` it used is inside `even` and `odd`, and `k` and `k + N / 2` are inside `x`, whose
length it keeps. -/
theorem fft_combine_bound {R : Type} [Field R] (m : MathLib R) (N : ℤ)
    (E O x : List (Complex R)) (k : ℕ) :
    ∀ y, fft_combine m N E O x k = some y →
      y.length = x.length ∧
      ∀ i, i < k → i < E.length ∧ i < O.length ∧ i < x.length ∧
        i + (N / 2).toNat < x.length := by
  induction k with
  | zero =>
    intro y hy
    rw [fft_combine] at hy
    exact ⟨by rw [← Option.some.inj hy], fun i hi => absurd hi (by omega)⟩
  | succ k ih =>
    intro y hy
    rw [fft_combine] at hy
    cases hprev : fft_combine m N E O x k with
    | none => rw [hprev] at hy; exact absurd hy (by simp)
    | some y' =>
      obtain ⟨hlen', hidx'⟩ := ih y' hprev
      rw [hprev] at hy
      simp only [Option.bind_eq_bind, Option.some_bind] at hy
      cases hO : O[k]? with
      | none => rw [hO] at hy; exact absurd hy (by simp)
      | some ok =>
        cases hE : E[k]? with
        | none => rw [hO, hE] at hy; exact absurd hy (by simp)
        | some ek =>
          rw [hO, hE] at hy
          simp only [Option.some_bind] at hy
          have hkO : k < O.length := by
            by_contra hc
            rw [List.getElem?_eq_none (by omega)] at hO
            exact absurd hO (by simp)
          have hkE : k < E.length := by
            by_contra hc
            rw [List.getElem?_eq_none (by omega)] at hE
            exact absurd hE (by simp)
          cases hst : storeAt y' k
              ⟨ek.real + ((m.cos (-2 * m.M_PI * (k : R) / (N : R))) * ok.real
                  - (m.sin (-2 * m.M_PI * (k : R) / (N : R))) * ok.imag),
                ek.imag + ((m.cos (-2 * m.M_PI * (k : R) / (N : R))) * ok.imag
                  + (m.sin (-2 * m.M_PI * (k : R) / (N : R))) * ok.real)⟩ with
          | none => rw [hst] at hy; exact absurd hy (by simp)
          | some y1 =>
            rw [hst] at hy
            simp only [Option.some_bind] at hy
            obtain ⟨hk1, hl1⟩ := storeAt_some _ _ _ _ hst
            obtain ⟨hk2, hl2⟩ := storeAt_some _ _ _ _ hy
            refine ⟨by omega, fun i hi => ?_⟩
            by_cases hik : i < k
            · exact hidx' i hik
            · have : i = k := by omega
              subst this
              exact ⟨hkE, hkO, by omega, by omega⟩


/-- C12: `fft` is total and stays inside its buffer for every length, power of two or not.
For every integer `N` and every buffer `x` of at least `max(N, 0)` elements: the call
returns and `x` keeps its length; each call on `N > 1` recurses on `N / 2`, which is
positive and smaller than `N`; every index read in `x` (`2i` and `2i + 1` for `i < N / 2`)
and every index written (`k` and `k + N / 2` for `k < N / 2`) is smaller than `N`, and these
are the indices whose being inside the buffer makes the two loops return; the call gives the
same result on the first `max(N, 0)` elements alone; the two half buffers have `N / 2`
elements, every index used in them is smaller than `N / 2`, and the recursive calls on them
return; the elements of `x` at indices `>= 2 * (N / 2)` are left unchanged. -/
theorem fft_total_in_bounds {R : Type} [Field R] (m : MathLib R) (N : ℤ)
    (x : List (Complex R)) (hx : max N 0 ≤ (x.length : ℤ)) :
    (∃ out, fft m x N = some out ∧ out.length = x.length ∧
      (∀ j : ℕ, 2 * (N / 2) ≤ (j : ℤ) → out[j]? = x[j]?) ∧
      fft m (x.take N.toNat) N = some (out.take N.toNat)) ∧
    (1 < N → 0 < N / 2 ∧ N / 2 < N ∧ (N / 2).toNat < N.toNat) ∧
    (∀ idx ∈ fft_read_indices N, (idx : ℤ) < N) ∧
    (∀ idx ∈ fft_write_indices N, (idx : ℤ) < N) ∧
    (∀ idx ∈ fft_half_indices N, (idx : ℤ) < N / 2) ∧
    (1 < N → ∃ even odd even' odd',
      fft_split x (N / 2).toNat = some (even, odd) ∧
      (even.length : ℤ) = N / 2 ∧ (odd.length : ℤ) = N / 2 ∧
      fft m even (N / 2) = some even' ∧ (even'.length : ℤ) = N / 2 ∧
      fft m odd (N / 2) = some odd' ∧ (odd'.length : ℤ) = N / 2 ∧
      fft_combine m N even' odd' x (N / 2).toNat = fft m x N) ∧
    (1 < N → ∀ y : List (Complex R),
      (∃ eo, fft_split y (N / 2).toNat = some eo)
        ↔ ∀ idx ∈ fft_read_indices N, idx < y.length) ∧
    (1 < N → ∀ (even odd y out : List (Complex R)),
      fft_combine m N even odd y (N / 2).toNat = some out →
        out.length = y.length ∧ (∀ idx ∈ fft_write_indices N, idx < y.length) ∧
        (∀ idx ∈ fft_half_indices N, idx < even.length ∧ idx < odd.length)) := by
  have hxN : N ≤ (x.length : ℤ) := by omega
  refine ⟨?_, ?_, ?_, ?_, ?_, ?_, ?_, ?_⟩
  · obtain ⟨out, hout, hlen⟩ := fft_in_bounds m N.toNat N x le_rfl hxN
    exact ⟨out, hout, hlen, fun j hj => fft_tail_unchanged m N x out hxN hout j hj,
      fft_take m N x out N.toNat (by omega) hxN hout⟩
  · intro h1
    omega
  · intro idx hidx
    unfold fft_read_indices at hidx
    split at hidx
    · exact absurd hidx (List.not_mem_nil _)
    · obtain ⟨i, hi, hmem⟩ := List.mem_flatMap.mp hidx
      have hi' : i < (N / 2).toNat := List.mem_range.mp hi
      simp only [List.mem_cons, List.mem_singleton, List.not_mem_nil, or_false] at hmem
      omega
  · intro idx hidx
    unfold fft_write_indices at hidx
    split at hidx
    · exact absurd hidx (List.not_mem_nil _)
    · obtain ⟨k, hk, hmem⟩ := List.mem_flatMap.mp hidx
      have hk' : k < (N / 2).toNat := List.mem_range.mp hk
      simp only [List.mem_cons, List.mem_singleton, List.not_mem_nil, or_false] at hmem
      omega
  · intro idx hidx
    unfold fft_half_indices at hidx
    split at hidx
    · exact absurd hidx (List.not_mem_nil _)
    · have hi' : idx < (N / 2).toNat := List.mem_range.mp hidx
      omega
  · intro h1
    obtain ⟨E, O, E', O', y, hs, hE, hO, _, _, hfE, hE', hfO, hO', hc, hy, _, _⟩ :=
      fft_step m N x (by omega) hxN
    exact ⟨E, O, E', O', hs, by omega, by omega, hfE, by omega, hfO, by omega, by rw [hc, hy]⟩
  · intro h1 y
    rw [fft_read_indices, if_neg (by omega)]
    exact fft_split_returns_iff y (N / 2).toNat
  · intro h1 E O y out hout
    obtain ⟨hlen, hidx⟩ := fft_combine_bound m N E O y (N / 2).toNat out hout
    refine ⟨hlen, ?_, ?_⟩
    · intro idx hmem
      rw [fft_write_indices, if_neg (by omega)] at hmem
      obtain ⟨k, hk, hmem'⟩ := List.mem_flatMap.mp hmem
      have hk' := hidx k (List.mem_range.mp hk)
      simp only [List.mem_cons, List.mem_singleton, List.not_mem_nil, or_false] at hmem'
      omega
    · intro idx hmem
      rw [fft_half_indices, if_neg (by omega)] at hmem
      have hk' := hidx idx (List.mem_range.mp hmem)
      exact ⟨hk'.1, hk'.2.1⟩

theorem fft_total_in_bounds_witness :
    max (3 : ℤ) 0 ≤ ((([⟨1, 0⟩, ⟨2, 0⟩, ⟨5, 0⟩] : List (Complex ℚ)).length : ℕ) : ℤ) ∧
    ∃ out, fft (MathLib.mk (0 : ℚ) id id) [⟨1, 0⟩, ⟨2, 0⟩, ⟨5, 0⟩] 3 = some out ∧
      out.length = 3 ∧ out[2]? = some ⟨5, 0⟩ := by
  have hx : max (3 : ℤ) 0 ≤ ((([⟨1, 0⟩, ⟨2, 0⟩, ⟨5, 0⟩] : List (Complex ℚ)).length : ℕ) : ℤ) := by
    decide
  obtain ⟨⟨out, hout, hlen, htail, _⟩, _⟩ :=
    fft_total_in_bounds (MathLib.mk (0 : ℚ) id id) 3 [⟨1, 0⟩, ⟨2, 0⟩, ⟨5, 0⟩] hx
  exact ⟨hx, out, hout, hlen, by rw [htail 2 (by norm_num)]; rfl⟩


end Arq
